import Mathlib

/-!
Chunked LIFO stack (`src/src/stack.cc`).

A shallow embedding of the `Stack` class and a verification of its contract.

Modelling conventions.

* `size_t` is 64 bits wide.  A `size_t` value is a natural number below
  `SIZE_MOD = 2 ^ 64`, and every operation that can wrap in C carries an
  explicit `% SIZE_MOD`.
* A singly linked chunk list (`StackChunk *` followed through `next`) is a
  `List StackChunk`; `nullptr` is `[]`, the head of the list is the node the
  pointer addresses.
* The data area of a chunk is the flat list of its bytes.  A pointer into the
  head chunk (`void *` returned by `get_last_elem`) is the byte offset into
  that area, `none` for `nullptr`.  A caller pointer `void *dst` is a buffer
  together with a byte offset into it.
* `assert` is active: a failing assertion stops the call, and the model
  returns `Except.error` with the stack state at that moment.
* `malloc` always succeeds (the source never checks its result); the bytes of
  a new block are indeterminate in C and are supplied as the argument `junk`.
-/

namespace ChunkedStack

/-! ## Constants and machine arithmetic -/

/-- A byte of memory.  The stack only copies bytes, it never computes with them. -/
abbrev Byte := Nat

/-- Number of values of `size_t`. -/
def SIZE_MOD : Nat := 2 ^ 64

/-- Macro `#define CHUNK_ELEM_MIN 32`. -/
def CHUNK_ELEM_MIN : Nat := 32

/-- Macro `#define CHUNK_EMPTY ((size_t)-1)`. -/
def CHUNK_EMPTY : Nat := SIZE_MOD - 1

/-- Macro `#define CHUNK_SIZE_DEFAULT (1 << 16)`. -/
def CHUNK_SIZE_DEFAULT : Nat := 2 ^ 16

/-- Value of `sizeof(StackChunk)` for `struct { StackChunk *next; char data[1]; }` with
8-byte pointers: 8 bytes of pointer, 1 byte of data, padded to a multiple of
the 8-byte alignment. -/
def sizeof_StackChunk : Nat := 16

/-- The decrement `--x` of a `size_t` (wraps from 0 to `SIZE_MOD - 1`). -/
def size_t_dec (x : Nat) : Nat := (x + SIZE_MOD - 1) % SIZE_MOD

/-! ## Raw memory -/

/-- Library call `memcpy(dst + off, src, n)`: bytes `off .. off + n - 1` of the buffer `dst`
are replaced by the first `n` bytes of `src`.  Positions outside the buffer, or
for which `src` has no byte, are left alone (in C these are out of bounds). -/
def memcpy : List Byte → Nat → List Byte → Nat → List Byte
  | [], _, _, _ => []
  | b :: dst, off + 1, src, n => b :: memcpy dst off src n
  | b :: dst, 0, _, 0 => b :: dst
  | b :: dst, 0, [], _ + 1 => b :: dst
  | _ :: dst, 0, a :: src, n + 1 => a :: memcpy dst 0 src n

/-- Library call `memset(dst + off, 0, n)`: bytes `off .. off + n - 1` of `dst` become zero. -/
def memset_zero : List Byte → Nat → Nat → List Byte
  | [], _, _ => []
  | b :: dst, off + 1, n => b :: memset_zero dst off n
  | b :: dst, 0, 0 => b :: dst
  | _ :: dst, 0, n + 1 => 0 :: memset_zero dst 0 n

/-- The `n` bytes of `buf` that start at byte offset `off`. -/
def read_bytes (buf : List Byte) (off n : Nat) : List Byte :=
  (buf.drop off).take n

/-! ## Chunk sizing -/

/-- Result of `calculate_chunk_elem_max`. -/
inductive SizingResult where
  | value (n : Nat)
  | assertion_failed
  | out_of_fuel
  deriving DecidableEq, Repr

/-- The loop `while (chunk_size <= elem_size_min) chunk_size <<= 1;` run for at
most `fuel` evaluations of its condition.  `some c` is the value of
`chunk_size` when the loop exits, `none` means the condition was still true
after `fuel` evaluations. -/
def doubling_loop (elem_size_min : Nat) : Nat → Nat → Option Nat
  | 0, _ => none
  | fuel + 1, chunk_size =>
    if chunk_size ≤ elem_size_min then
      doubling_loop elem_size_min fuel ((chunk_size * 2) % SIZE_MOD)
    else
      some chunk_size

/-- Method `Stack::calculate_chunk_elem_max(elem_size, chunk_size)`. -/
def calculate_chunk_elem_max (fuel elem_size chunk_size : Nat) : SizingResult :=
  let elem_size_min := (elem_size * CHUNK_ELEM_MIN) % SIZE_MOD
  if elem_size ≠ 0 ∧ chunk_size ≠ 0 then
    match doubling_loop elem_size_min fuel chunk_size with
    | none => SizingResult.out_of_fuel
    | some doubled =>
      let chunk_size := (doubled + SIZE_MOD - sizeof_StackChunk) % SIZE_MOD
      SizingResult.value (chunk_size / elem_size)
  else
    SizingResult.assertion_failed

/-! ## The stack -/

/-- Type `struct StackChunk`: the `next` pointer is the tail of the list the chunk
is in; `data` is the data area, `elem_size * chunk_elem_max` bytes of it being
addressed by the stack. -/
structure StackChunk where
  data : List Byte
  deriving DecidableEq, Repr

/-- The data members of `class Stack`. -/
structure Stack where
  chunk_curr : List StackChunk
  chunk_free : List StackChunk
  chunk_index : Nat
  chunk_elem_max : Nat
  elem_size : Nat
  elem_num : Nat
  deriving DecidableEq, Repr

/-- The constructor `Stack(elem_size, description, chunk_size)`; `none` when
`calculate_chunk_elem_max` aborts or does not come back within `fuel`. -/
def Stack.create (fuel elem_size chunk_size : Nat) : Option Stack :=
  match calculate_chunk_elem_max fuel elem_size chunk_size with
  | SizingResult.value n =>
    some
      { chunk_curr := []
        chunk_free := []
        chunk_index := CHUNK_EMPTY
        chunk_elem_max := n
        elem_size := elem_size
        elem_num := 0 }
  | _ => none

/-- Function `BLI_stack_new(elem_size, description)`. -/
def BLI_stack_new (fuel elem_size : Nat) : Option Stack :=
  Stack.create fuel elem_size CHUNK_SIZE_DEFAULT

/-- Method `Stack::count`. -/
def Stack.count (s : Stack) : Nat := s.elem_num

/-- Method `Stack::is_empty`: `chunk_curr == nullptr`. -/
def Stack.is_empty (s : Stack) : Bool := s.chunk_curr.isEmpty

/-- Method `Stack::get_last_elem`: byte offset of the top slot in the head chunk. -/
def Stack.get_last_elem (s : Stack) : Option Nat :=
  if s.chunk_curr.isEmpty ∨ s.chunk_index = CHUNK_EMPTY then
    none
  else
    some ((s.elem_size * s.chunk_index) % SIZE_MOD)

/-- The block `malloc(sizeof(StackChunk) + elem_size * chunk_elem_max)`
returns, with indeterminate bytes `junk 0, junk 1, ...` in its data area. -/
def Stack.malloc_chunk (s : Stack) (junk : Nat → Byte) : StackChunk :=
  { data := (List.range (s.elem_size * s.chunk_elem_max)).map junk }

/-- The chunk acquisition that `push_raw` contains twice (lines 66-75 and
80-89): take the head of the free list, or allocate; link the chunk in front
of the active list; reset the cursor. -/
def Stack.acquire_chunk (s : Stack) (junk : Nat → Byte) : Stack :=
  match s.chunk_free with
  | new_chunk :: next =>
    { s with chunk_free := next, chunk_curr := new_chunk :: s.chunk_curr, chunk_index := 0 }
  | [] =>
    { s with chunk_curr := s.malloc_chunk junk :: s.chunk_curr, chunk_index := 0 }

/-- The state `push_raw` has reached when it evaluates its assertion. -/
def Stack.push_raw_advance (s : Stack) (junk : Nat → Byte) : Stack :=
  if s.chunk_index = CHUNK_EMPTY then
    s.acquire_chunk junk
  else
    let s1 := { s with chunk_index := (s.chunk_index + 1) % SIZE_MOD }
    if s1.chunk_index = s1.chunk_elem_max then s1.acquire_chunk junk else s1

/-- Method `Stack::push_raw`: the new state and the returned pointer.  The counter
`elem_num` is incremented without wrap-around: every live element occupies at
least one byte of a 64-bit address space, so the counter stays below
`SIZE_MOD` in every execution. -/
def Stack.push_raw (s : Stack) (junk : Nat → Byte) : Except Stack (Stack × Option Nat) :=
  let s1 := s.push_raw_advance junk
  if ¬ s1.chunk_curr.isEmpty ∧ s1.chunk_index < s1.chunk_elem_max then
    let s2 := { s1 with elem_num := s1.elem_num + 1 }
    Except.ok (s2, s2.get_last_elem)
  else
    Except.error s1

/-- Method `Stack::push`. -/
def Stack.push (s : Stack) (junk : Nat → Byte) (src : List Byte) : Except Stack Stack :=
  match s.push_raw junk with
  | Except.error e => Except.error e
  | Except.ok (s1, dst) =>
    match dst, s1.chunk_curr with
    | some off, c :: next =>
      Except.ok { s1 with chunk_curr := { data := memcpy c.data off src s1.elem_size } :: next }
    | _, _ => Except.ok s1

/-- Method `Stack::discard`. -/
def Stack.discard (s : Stack) : Stack :=
  if s.is_empty then
    s
  else
    let s1 := { s with elem_num := if s.elem_num = 0 then SIZE_MOD - 1 else s.elem_num - 1 }
    let s2 := { s1 with chunk_index := size_t_dec s1.chunk_index }
    if s2.chunk_index = CHUNK_EMPTY then
      match s2.chunk_curr with
      | to_free :: next =>
        { s2 with
          chunk_curr := next
          chunk_free := to_free :: s2.chunk_free
          chunk_index := size_t_dec s2.chunk_elem_max }
      | [] => s2
    else
      s2

/-- Method `Stack::pop(dst)`, the destination being byte `off` of `buf`: the new
state and the new contents of the buffer. -/
def Stack.pop (s : Stack) (buf : List Byte) (off : Nat) : Stack × List Byte :=
  if s.is_empty then
    (s, memset_zero buf off s.elem_size)
  else
    match s.get_last_elem, s.chunk_curr with
    | some src, c :: _ => (s.discard, memcpy buf off (c.data.drop src) s.elem_size)
    | _, _ => (s, buf)

/-- The loop `while (n--) { pop(dst); dst += elem_size; }` of `pop_n`. -/
def Stack.pop_n_loop : Nat → Stack → List Byte → Nat → Stack × List Byte
  | 0, s, buf, _ => (s, buf)
  | n + 1, s, buf, dst =>
    let r := s.pop buf dst
    Stack.pop_n_loop n r.1 r.2 (dst + r.1.elem_size)

/-- Method `Stack::pop_n(dst, n)`, the destination being byte `off` of `buf`. -/
def Stack.pop_n (s : Stack) (buf : List Byte) (off n : Nat) : Except Stack (Stack × List Byte) :=
  if n ≤ s.count then Except.ok (Stack.pop_n_loop n s buf off) else Except.error s

/-- The loop `while (n--) { dst -= elem_size; pop(dst); }` of `pop_n_reverse`. -/
def Stack.pop_n_reverse_loop : Nat → Stack → List Byte → Nat → Stack × List Byte
  | 0, s, buf, _ => (s, buf)
  | n + 1, s, buf, dst =>
    let r := s.pop buf (dst - s.elem_size)
    Stack.pop_n_reverse_loop n r.1 r.2 (dst - s.elem_size)

/-- Method `Stack::pop_n_reverse(dst, n)`, the destination being byte `off` of `buf`;
the product `elem_size * n` is computed in `size_t`. -/
def Stack.pop_n_reverse (s : Stack) (buf : List Byte) (off n : Nat) :
    Except Stack (Stack × List Byte) :=
  if n ≤ s.count then
    Except.ok (Stack.pop_n_reverse_loop n s buf (off + (s.elem_size * n) % SIZE_MOD))
  else
    Except.error s

/-- Method `Stack::peek`. -/
def Stack.peek (s : Stack) : Option Nat :=
  if s.is_empty then none else s.get_last_elem

/-- Method `Stack::clear`.  Walking `chunk_free` to its last node and storing
`chunk_curr` in the `next` field of that node is list concatenation. -/
def Stack.clear (s : Stack) : Stack :=
  let s1 := { s with elem_num := 0, chunk_index := CHUNK_EMPTY }
  match s1.chunk_free, s1.chunk_curr with
  | _ :: _, _ :: _ => { s1 with chunk_free := s1.chunk_free ++ s1.chunk_curr, chunk_curr := [] }
  | _ :: _, [] => s1
  | [], _ => { s1 with chunk_free := s1.chunk_curr, chunk_curr := [] }

/-! ## Operation sequences and reachable states -/

/-- One call of the public interface, with its arguments. -/
inductive Op where
  | push (junk : Nat → Byte) (src : List Byte)
  | push_raw (junk : Nat → Byte)
  | pop (buf : List Byte) (off : Nat)
  | pop_n (buf : List Byte) (off n : Nat)
  | pop_n_reverse (buf : List Byte) (off n : Nat)
  | discard
  | clear

/-- The effect of one call on the stack (what the call wrote to a caller
buffer is dropped); `Except.error` when an assertion aborts the call. -/
def Stack.step (s : Stack) : Op → Except Stack Stack
  | Op.push junk src => s.push junk src
  | Op.push_raw junk =>
    match s.push_raw junk with
    | Except.ok r => Except.ok r.1
    | Except.error e => Except.error e
  | Op.pop buf off => Except.ok (s.pop buf off).1
  | Op.pop_n buf off n =>
    match s.pop_n buf off n with
    | Except.ok r => Except.ok r.1
    | Except.error e => Except.error e
  | Op.pop_n_reverse buf off n =>
    match s.pop_n_reverse buf off n with
    | Except.ok r => Except.ok r.1
    | Except.error e => Except.error e
  | Op.discard => Except.ok s.discard
  | Op.clear => Except.ok s.clear

/-- A sequence of calls, stopping at the first failed assertion. -/
def Stack.run (s : Stack) : List Op → Except Stack Stack
  | [] => Except.ok s
  | op :: ops =>
    match s.step op with
    | Except.ok s1 => Stack.run s1 ops
    | Except.error e => Except.error e

/-- The allocation request `sizeof(StackChunk) + elem_size * chunk_elem_max`
of the stack is representable in `size_t`, and elements and chunks are not
empty.  Every stack constructed without `size_t` overflow in
`calculate_chunk_elem_max` has this property (`create_params_ok`). -/
def Stack.params_ok (s : Stack) : Prop :=
  0 < s.elem_size ∧ 0 < s.chunk_elem_max ∧
    sizeof_StackChunk + s.elem_size * s.chunk_elem_max < SIZE_MOD

/-- The states a program can bring a stack into: construction with admissible
parameters (`Stack.params_ok`), followed by calls none of which aborts. -/
inductive Reachable : Stack → Prop where
  | fresh (fuel elem_size chunk_size : Nat) (s : Stack) :
      Stack.create fuel elem_size chunk_size = some s → s.params_ok → Reachable s
  | step (s : Stack) (op : Op) (s1 : Stack) :
      Reachable s → s.step op = Except.ok s1 → Reachable s1

/-! ## Logical contents -/

/-- The element stored in slot `i` of a chunk. -/
def read_slot (elem_size : Nat) (c : StackChunk) (i : Nat) : List Byte :=
  read_bytes c.data (elem_size * i) elem_size

/-- Slots `n - 1, n - 2, ..., 0` of a chunk. -/
def slots_down (elem_size : Nat) (c : StackChunk) : Nat → List (List Byte)
  | 0 => []
  | n + 1 => read_slot elem_size c n :: slots_down elem_size c n

/-- All slots of a list of full chunks, newest chunk first, top slot first. -/
def full_chunks (elem_size chunk_elem_max : Nat) : List StackChunk → List (List Byte)
  | [] => []
  | c :: cs => slots_down elem_size c chunk_elem_max ++ full_chunks elem_size chunk_elem_max cs

/-- The live elements, most recently pushed first: slots `chunk_index .. 0` of
the head chunk, then every slot of the older chunks. -/
def Stack.live (s : Stack) : List (List Byte) :=
  match s.chunk_curr with
  | [] => []
  | c :: older =>
    slots_down s.elem_size c (s.chunk_index + 1) ++ full_chunks s.elem_size s.chunk_elem_max older

/-- The logical contents: the live elements from bottom to top. -/
def Stack.contents (s : Stack) : List (List Byte) := s.live.reverse

/-- Representation invariant of the stack. -/
structure Stack.wf (s : Stack) : Prop where
  params : s.params_ok
  curr_size : ∀ c ∈ s.chunk_curr, c.data.length = s.elem_size * s.chunk_elem_max
  free_size : ∀ c ∈ s.chunk_free, c.data.length = s.elem_size * s.chunk_elem_max
  when_empty : s.chunk_curr = [] →
    s.elem_num = 0 ∧ (s.chunk_index = CHUNK_EMPTY ∨ s.chunk_index = s.chunk_elem_max - 1)
  when_populated : s.chunk_curr ≠ [] →
    s.chunk_index < s.chunk_elem_max ∧
      s.elem_num = (s.chunk_curr.length - 1) * s.chunk_elem_max + s.chunk_index + 1

/-! ## Specification-level companions of the operations -/

/-- The calls `push(v)` for the given elements, in order, each with its own
indeterminate allocation bytes. -/
def push_ops (vs : List ((Nat → Byte) × List Byte)) : List Op :=
  vs.map fun p => Op.push p.1 p.2

/-- Successive `pop(dst)` calls, one per destination `(buf, off)`: the final
state and, for each call, the `elem_size` bytes it left at its destination. -/
def Stack.pop_each (s : Stack) : List (List Byte × Nat) → Stack × List (List Byte)
  | [] => (s, [])
  | d :: ds =>
    let r := s.pop d.1 d.2
    let t := Stack.pop_each r.1 ds
    (t.1, read_bytes r.2 d.2 s.elem_size :: t.2)

/-- What the specification compares `pop_n(buf, k)` with: `k` sequential
`pop()` calls, call number `i` (from 0) writing to the `i`-th
`elem_size`-byte slot of the destination. -/
def sequential_pops (s : Stack) (buf : List Byte) (off : Nat) : Nat → Stack × List Byte
  | 0 => (s, buf)
  | k + 1 =>
    let r := sequential_pops s buf off k
    r.1.pop r.2 (off + k * s.elem_size)

/-- Whether the call is a `push` (copying or raw). -/
def Op.is_push : Op → Bool
  | Op.push _ _ => true
  | Op.push_raw _ => true
  | _ => false

/-- Whether the call is a `pop` or a `discard`. -/
def Op.is_removal : Op → Bool
  | Op.pop _ _ => true
  | Op.discard => true
  | _ => false

/-- Number of `pop` and `discard` calls of the sequence that are executed
while the stack is non-empty. -/
def removals_on_nonempty (s : Stack) : List Op → Nat
  | [] => 0
  | op :: ops =>
    (if op.is_removal && !s.is_empty then 1 else 0) +
      match s.step op with
      | Except.ok s1 => removals_on_nonempty s1 ops
      | Except.error _ => 0

/-- Number of `push` calls of the sequence. -/
def push_count (ops : List Op) : Nat := (ops.filter Op.is_push).length

/-! ## Chunk acquisition and allocation -/

/-- Whether `push_raw` runs one of its two chunk acquisition blocks: the
cursor is `CHUNK_EMPTY` (line 65), or the incremented cursor equals
`chunk_elem_max` (line 78). -/
def Stack.push_acquires (s : Stack) : Bool :=
  decide (s.chunk_index = CHUNK_EMPTY) ||
    decide ((s.chunk_index + 1) % SIZE_MOD = s.chunk_elem_max)

/-- Whether `push_raw` calls `malloc`: it acquires a chunk and `chunk_free` is
null. -/
def Stack.push_allocates (s : Stack) : Bool :=
  s.push_acquires && s.chunk_free.isEmpty

/-- Number of `malloc` calls made by the pushes of a sequence of calls. -/
def allocations (s : Stack) : List Op → Nat
  | [] => 0
  | op :: ops =>
    (if op.is_push && s.push_allocates then 1 else 0) +
      match s.step op with
      | Except.ok s1 => allocations s1 ops
      | Except.error _ => 0

/-- The argument `sizeof(StackChunk) + (elem_size * chunk_elem_max)` of the
`malloc` calls in `push_raw`, computed in `size_t`. -/
def Stack.malloc_request (s : Stack) : Nat :=
  (sizeof_StackChunk + (s.elem_size * s.chunk_elem_max) % SIZE_MOD) % SIZE_MOD

/-- Number of chunks the stack owns, active and free. -/
def Stack.chunk_total (s : Stack) : Nat := s.chunk_curr.length + s.chunk_free.length

/-- Number of elements that can still be pushed into the head chunk. -/
def Stack.head_room (s : Stack) : Nat :=
  match s.chunk_curr with
  | [] => 0
  | _ :: _ => s.chunk_elem_max - 1 - s.chunk_index

/-! ## Concrete stacks -/

/-- Allocation bytes used in the concrete stacks below. -/
def stale_bytes : Nat → Byte := fun _ => 170

/-- The stack `BLI_stack_new_ex(1, description, 64)` constructs: one-byte
elements, 48 of them per chunk. -/
def byte_stack : Stack :=
  { chunk_curr := []
    chunk_free := []
    chunk_index := CHUNK_EMPTY
    chunk_elem_max := 48
    elem_size := 1
    elem_num := 0 }

/-- The stack `byte_stack` after `push` of the byte 7. -/
def byte_stack_7 : Stack :=
  { chunk_curr := [{ data := 7 :: List.replicate 47 170 }]
    chunk_free := []
    chunk_index := 0
    chunk_elem_max := 48
    elem_size := 1
    elem_num := 1 }

/-- The stack `BLI_stack_new(4, description)` constructs: four-byte elements,
16380 of them per chunk. -/
def int_stack : Stack :=
  { chunk_curr := []
    chunk_free := []
    chunk_index := CHUNK_EMPTY
    chunk_elem_max := 16380
    elem_size := 4
    elem_num := 0 }

/-- The stack `byte_stack_7` after `push` of the byte 8. -/
def byte_stack_7_8 : Stack :=
  { chunk_curr := [{ data := 7 :: 8 :: List.replicate 46 170 }]
    chunk_free := []
    chunk_index := 1
    chunk_elem_max := 48
    elem_size := 1
    elem_num := 2 }

/-! ## Raw memory: proofs -/

theorem memcpy_length : ∀ (dst : List Byte) (off : Nat) (src : List Byte) (n : Nat),
    (memcpy dst off src n).length = dst.length := by
  intro dst
  induction dst with
  | nil => intro off src n; simp [memcpy]
  | cons b dst ih =>
    intro off src n
    cases off with
    | succ off => simp [memcpy, ih]
    | zero =>
      cases n with
      | zero => simp [memcpy]
      | succ n =>
        cases src with
        | nil => simp [memcpy]
        | cons a src => simp [memcpy, ih]

theorem memcpy_getElem? : ∀ (dst : List Byte) (off : Nat) (src : List Byte) (n i : Nat),
    (memcpy dst off src n)[i]? =
      if off ≤ i ∧ i < off + n ∧ i - off < src.length ∧ i < dst.length then src[i - off]?
      else dst[i]? := by
  intro dst
  induction dst with
  | nil => intro off src n i; simp [memcpy]
  | cons b dst ih =>
    intro off src n i
    cases off with
    | succ off =>
      cases i with
      | zero => simp [memcpy]
      | succ i =>
        simp only [memcpy, List.getElem?_cons_succ, ih, List.length_cons]
        simp only [Nat.add_le_add_iff_right, Nat.add_sub_add_right, Nat.add_lt_add_iff_right,
          Nat.add_right_comm off 1 n]
    | zero =>
      cases n with
      | zero => simp [memcpy]
      | succ n =>
        cases src with
        | nil => simp [memcpy]
        | cons a src =>
          cases i with
          | zero => simp [memcpy]
          | succ i =>
            simp only [memcpy, List.getElem?_cons_succ, ih, List.length_cons]
            simp

theorem memset_zero_length : ∀ (dst : List Byte) (off n : Nat),
    (memset_zero dst off n).length = dst.length := by
  intro dst
  induction dst with
  | nil => intro off n; simp [memset_zero]
  | cons b dst ih =>
    intro off n
    cases off with
    | succ off => simp [memset_zero, ih]
    | zero =>
      cases n with
      | zero => simp [memset_zero]
      | succ n => simp [memset_zero, ih]

theorem memset_zero_getElem? : ∀ (dst : List Byte) (off n i : Nat),
    (memset_zero dst off n)[i]? =
      if off ≤ i ∧ i < off + n ∧ i < dst.length then some 0 else dst[i]? := by
  intro dst
  induction dst with
  | nil => intro off n i; simp [memset_zero]
  | cons b dst ih =>
    intro off n i
    cases off with
    | succ off =>
      cases i with
      | zero => simp [memset_zero]
      | succ i =>
        simp only [memset_zero, List.getElem?_cons_succ, ih, List.length_cons]
        simp only [Nat.add_le_add_iff_right, Nat.add_lt_add_iff_right,
          Nat.add_right_comm off 1 n]
    | zero =>
      cases n with
      | zero => simp [memset_zero]
      | succ n =>
          cases i with
          | zero => simp [memset_zero]
          | succ i =>
            simp only [memset_zero, List.getElem?_cons_succ, ih, List.length_cons]
            simp

theorem read_bytes_getElem? (buf : List Byte) (off n i : Nat) :
    (read_bytes buf off n)[i]? = if i < n then buf[off + i]? else none := by
  simp [read_bytes, List.getElem?_take, List.getElem?_drop]

theorem read_bytes_length (buf : List Byte) (off n : Nat) (h : off + n ≤ buf.length) :
    (read_bytes buf off n).length = n := by
  simp [read_bytes]; omega

/-- Reading back what `memcpy` wrote. -/
theorem read_bytes_memcpy_same (dst : List Byte) (off : Nat) (src : List Byte) (n : Nat)
    (hd : off + n ≤ dst.length) (hs : n ≤ src.length) :
    read_bytes (memcpy dst off src n) off n = src.take n := by
  apply List.ext_getElem?
  intro i
  rw [read_bytes_getElem?, memcpy_getElem?, List.getElem?_take]
  by_cases hi : i < n
  · have hc : off ≤ off + i ∧ off + i < off + n ∧ off + i - off < src.length ∧
        off + i < dst.length := by omega
    rw [if_pos hi, if_pos hc, if_pos hi, Nat.add_sub_cancel_left]
  · simp [hi]

/-- Frame rule: `memcpy` leaves every byte range that does not meet its destination unchanged. -/
theorem read_bytes_memcpy_disjoint (dst : List Byte) (off : Nat) (src : List Byte)
    (n off1 n1 : Nat) (h : off1 + n1 ≤ off ∨ off + n ≤ off1) :
    read_bytes (memcpy dst off src n) off1 n1 = read_bytes dst off1 n1 := by
  apply List.ext_getElem?
  intro i
  rw [read_bytes_getElem?, read_bytes_getElem?, memcpy_getElem?]
  by_cases hi : i < n1
  · have hc : ¬ (off ≤ off1 + i ∧ off1 + i < off + n ∧ off1 + i - off < src.length ∧
        off1 + i < dst.length) := by omega
    simp [hi, hc]
  · simp [hi]

theorem read_bytes_memset_same (dst : List Byte) (off n : Nat) (hd : off + n ≤ dst.length) :
    read_bytes (memset_zero dst off n) off n = List.replicate n 0 := by
  apply List.ext_getElem?
  intro i
  rw [read_bytes_getElem?, memset_zero_getElem?, List.getElem?_replicate]
  by_cases hi : i < n
  · have hc : off ≤ off + i ∧ off + i < off + n ∧ off + i < dst.length := by omega
    simp [hi, hc]
  · simp [hi]

theorem read_bytes_memset_disjoint (dst : List Byte) (off n off1 n1 : Nat)
    (h : off1 + n1 ≤ off ∨ off + n ≤ off1) :
    read_bytes (memset_zero dst off n) off1 n1 = read_bytes dst off1 n1 := by
  apply List.ext_getElem?
  intro i
  rw [read_bytes_getElem?, read_bytes_getElem?, memset_zero_getElem?]
  by_cases hi : i < n1
  · have hc : ¬ (off ≤ off1 + i ∧ off1 + i < off + n ∧ off1 + i < dst.length) := by omega
    simp [hi, hc]
  · simp [hi]

theorem memcpy_take_src (dst : List Byte) (off : Nat) (src : List Byte) (n : Nat) :
    memcpy dst off (src.take n) n = memcpy dst off src n := by
  apply List.ext_getElem?
  intro i
  rw [memcpy_getElem?, memcpy_getElem?, List.getElem?_take, List.length_take]
  by_cases hc : off ≤ i ∧ i < off + n ∧ i - off < src.length ∧ i < dst.length
  · have hc2 : off ≤ i ∧ i < off + n ∧ i - off < min n src.length ∧ i < dst.length := by omega
    have hlt : i - off < n := by omega
    rw [if_pos hc, if_pos hc2, if_pos hlt]
  · have hc2 : ¬ (off ≤ i ∧ i < off + n ∧ i - off < min n src.length ∧ i < dst.length) := by
      omega
    rw [if_neg hc, if_neg hc2]

/-! ## Chunk sizing: proofs -/

theorem SIZE_MOD_eq : SIZE_MOD = 18446744073709551616 := by
  unfold SIZE_MOD; norm_num

/-- When no doubling wraps, the loop stops at the first doubled budget that
exceeds `elem_size_min`. -/
theorem doubling_loop_exact (m : Nat) :
    ∀ (k B fuel : Nat), (∀ j, j < k → B * 2 ^ j ≤ m) → m < B * 2 ^ k →
      B * 2 ^ k < SIZE_MOD → k < fuel → doubling_loop m fuel B = some (B * 2 ^ k) := by
  intro k
  induction k with
  | zero =>
    intro B fuel _ hk _ hf
    obtain ⟨f, rfl⟩ : ∃ f, fuel = f + 1 := ⟨fuel - 1, by omega⟩
    have hk1 : ¬ B ≤ m := by simpa using hk
    simp [doubling_loop, hk1]
  | succ k ih =>
    intro B fuel hmin hk hlt hf
    obtain ⟨f, rfl⟩ : ∃ f, fuel = f + 1 := ⟨fuel - 1, by omega⟩
    have h0 : B ≤ m := by simpa using hmin 0 (Nat.succ_pos k)
    have hpow : B * 2 ^ (k + 1) = B * 2 * 2 ^ k := by ring
    have hone : 1 ≤ 2 ^ k := Nat.one_le_two_pow
    have hB2 : B * 2 < SIZE_MOD := by
      have : B * 2 * 1 ≤ B * 2 * 2 ^ k := Nat.mul_le_mul_left _ hone
      omega
    have hstep := ih (B * 2) f
      (fun j hj => by
        have := hmin (j + 1) (by omega)
        have e : B * 2 ^ (j + 1) = B * 2 * 2 ^ j := by ring
        omega)
      (by omega) (by omega) (by omega)
    simp [doubling_loop, h0, Nat.mod_eq_of_lt hB2, hstep, hpow]

/-- Every positive budget has a least number of doublings that exceeds a bound. -/
theorem exists_least_doubling (S B : Nat) (hB : 0 < B) :
    ∃ k, (∀ j, j < k → B * 2 ^ j ≤ 32 * S) ∧ 32 * S < B * 2 ^ k := by
  have hex : ∃ k, 32 * S < B * 2 ^ k := by
    refine ⟨32 * S, ?_⟩
    have h1 : 32 * S < 2 ^ (32 * S) := Nat.lt_two_pow _
    have h2 : 1 * 2 ^ (32 * S) ≤ B * 2 ^ (32 * S) := Nat.mul_le_mul_right _ hB
    omega
  refine ⟨Nat.find hex, ?_, Nat.find_spec hex⟩
  intro j hj
  exact Nat.le_of_not_lt (Nat.find_min hex hj)

/-- The value of `calculate_chunk_elem_max` when no doubling wraps. -/
theorem calculate_chunk_elem_max_exact (S B k fuel : Nat) (hS : 0 < S) (hB : 0 < B)
    (hleast : ∀ j, j < k → B * 2 ^ j ≤ 32 * S) (hk : 32 * S < B * 2 ^ k)
    (hno : B * 2 ^ k < SIZE_MOD) (hfuel : k < fuel) :
    calculate_chunk_elem_max fuel S B =
      SizingResult.value ((B * 2 ^ k - sizeof_StackChunk) / S) := by
  have hm : (S * CHUNK_ELEM_MIN) % SIZE_MOD = 32 * S := by
    rw [Nat.mod_eq_of_lt (by unfold CHUNK_ELEM_MIN; omega)]
    unfold CHUNK_ELEM_MIN; ring
  have hloop := doubling_loop_exact (32 * S) k B fuel hleast hk hno hfuel
  have hsub : (B * 2 ^ k + SIZE_MOD - sizeof_StackChunk) % SIZE_MOD =
      B * 2 ^ k - sizeof_StackChunk := by
    have e : B * 2 ^ k + SIZE_MOD - sizeof_StackChunk =
        (B * 2 ^ k - sizeof_StackChunk) + SIZE_MOD := by
      unfold sizeof_StackChunk; omega
    rw [e, Nat.add_mod_right, Nat.mod_eq_of_lt (by omega)]
  have hne : S ≠ 0 ∧ B ≠ 0 := ⟨by omega, by omega⟩
  simp only [calculate_chunk_elem_max, hm, hloop, hsub]
  simp [hne.1, hne.2]

/-! ## The representation invariant -/

theorem params_ok_elem_max_lt {s : Stack} (h : s.params_ok) :
    s.chunk_elem_max + sizeof_StackChunk < SIZE_MOD := by
  obtain ⟨h1, _, h3⟩ := h
  have : 1 * s.chunk_elem_max ≤ s.elem_size * s.chunk_elem_max := Nat.mul_le_mul_right _ h1
  omega

theorem params_ok_slot {s : Stack} (h : s.params_ok) {i : Nat} (hi : i < s.chunk_elem_max) :
    s.elem_size * i + s.elem_size ≤ s.elem_size * s.chunk_elem_max ∧
      s.elem_size * i < SIZE_MOD := by
  obtain ⟨_, _, h3⟩ := h
  have h4 : s.elem_size * (i + 1) ≤ s.elem_size * s.chunk_elem_max :=
    Nat.mul_le_mul_left _ hi
  rw [Nat.mul_add, Nat.mul_one] at h4
  exact ⟨h4, by omega⟩

theorem size_t_dec_pos {x : Nat} (h0 : 0 < x) (h : x < SIZE_MOD) : size_t_dec x = x - 1 := by
  unfold size_t_dec
  have e : x + SIZE_MOD - 1 = (x - 1) + SIZE_MOD := by omega
  rw [e, Nat.add_mod_right, Nat.mod_eq_of_lt (by omega)]

theorem size_t_dec_zero : size_t_dec 0 = CHUNK_EMPTY := by
  unfold size_t_dec CHUNK_EMPTY
  rw [Nat.zero_add, Nat.mod_eq_of_lt (by unfold SIZE_MOD; omega)]

theorem CHUNK_EMPTY_lt : CHUNK_EMPTY + 1 = SIZE_MOD := by
  unfold CHUNK_EMPTY SIZE_MOD; norm_num

theorem malloc_chunk_size (s : Stack) (junk : Nat → Byte) :
    (s.malloc_chunk junk).data.length = s.elem_size * s.chunk_elem_max := by
  simp [Stack.malloc_chunk]

/-- A fresh stack satisfies the invariant. -/
theorem create_wf {fuel S B : Nat} {s : Stack} (hc : Stack.create fuel S B = some s)
    (hp : s.params_ok) : s.wf := by
  unfold Stack.create at hc
  split at hc
  · injection hc with hc
    subst hc
    exact ⟨hp, by simp, by simp, fun _ => ⟨rfl, Or.inl rfl⟩, fun h => absurd rfl h⟩
  · exact absurd hc (by simp)

theorem create_is_empty {fuel S B : Nat} {s : Stack} (hc : Stack.create fuel S B = some s) :
    s.chunk_curr = [] ∧ s.chunk_free = [] ∧ s.chunk_index = CHUNK_EMPTY ∧ s.elem_num = 0 ∧
      s.elem_size = S := by
  unfold Stack.create at hc
  split at hc
  · injection hc with hc
    subst hc
    simp
  · exact absurd hc (by simp)

/-- Construction without `size_t` overflow gives admissible parameters. -/
theorem create_params_ok (S B k fuel : Nat) (hS : 0 < S) (hB : 0 < B)
    (hleast : ∀ j, j < k → B * 2 ^ j ≤ 32 * S) (hk : 32 * S < B * 2 ^ k)
    (hno : B * 2 ^ k < SIZE_MOD) (hfuel : k < fuel) :
    ∃ s, Stack.create fuel S B = some s ∧ s.params_ok ∧
      s.chunk_elem_max = (B * 2 ^ k - sizeof_StackChunk) / S := by
  have hf := calculate_chunk_elem_max_exact S B k fuel hS hB hleast hk hno hfuel
  refine ⟨Stack.mk [] [] CHUNK_EMPTY ((B * 2 ^ k - sizeof_StackChunk) / S) S 0,
    by simp only [Stack.create, hf], ?_, rfl⟩
  refine ⟨hS, ?_, ?_⟩
  · show 0 < (B * 2 ^ k - sizeof_StackChunk) / S
    apply Nat.div_pos _ hS
    unfold sizeof_StackChunk; omega
  · show sizeof_StackChunk + S * ((B * 2 ^ k - sizeof_StackChunk) / S) < SIZE_MOD
    have := Nat.mul_div_le (B * 2 ^ k - sizeof_StackChunk) S
    unfold sizeof_StackChunk at *; omega

/-! ## Push -/

theorem acquire_chunk_index (s : Stack) (x : Nat) (junk : Nat → Byte) :
    Stack.acquire_chunk { s with chunk_index := x } junk = s.acquire_chunk junk := by
  unfold Stack.acquire_chunk Stack.malloc_chunk
  cases h : s.chunk_free <;> simp [h]

/-- What chunk acquisition does: a chunk of the right size, from the free list
when there is one, is linked in front of the active list. -/
theorem acquire_chunk_spec (s : Stack) (junk : Nat → Byte)
    (hf : ∀ c ∈ s.chunk_free, c.data.length = s.elem_size * s.chunk_elem_max) :
    ∃ c fr, s.acquire_chunk junk =
        { s with chunk_curr := c :: s.chunk_curr, chunk_free := fr, chunk_index := 0 } ∧
      c.data.length = s.elem_size * s.chunk_elem_max ∧
      (∀ c1 ∈ fr, c1.data.length = s.elem_size * s.chunk_elem_max) ∧
      (s.chunk_free = c :: fr ∨ (s.chunk_free = [] ∧ fr = [] ∧ c = s.malloc_chunk junk)) := by
  unfold Stack.acquire_chunk
  cases h : s.chunk_free with
  | nil =>
    refine ⟨s.malloc_chunk junk, [], ?_, malloc_chunk_size s junk, by simp, Or.inr ⟨rfl, rfl, rfl⟩⟩
    simp [h]
  | cons c fr =>
    rw [h] at hf
    exact ⟨c, fr, rfl, hf c (by simp), fun c1 h1 => hf c1 (by simp [h1]), Or.inl rfl⟩

/-- Under the invariant `push_raw` acquires a chunk exactly when there is no
active chunk or the cursor is at the last slot, and otherwise advances the
cursor. -/
theorem push_raw_advance_eq {s : Stack} (h : s.wf) (junk : Nat → Byte) :
    s.push_raw_advance junk =
      if s.chunk_curr = [] ∨ s.chunk_index + 1 = s.chunk_elem_max then s.acquire_chunk junk
      else { s with chunk_index := s.chunk_index + 1 } := by
  have hmax := params_ok_elem_max_lt h.params
  have hE := CHUNK_EMPTY_lt
  unfold sizeof_StackChunk at hmax
  obtain ⟨_, hpos, _⟩ := h.params
  unfold Stack.push_raw_advance
  by_cases hidx : s.chunk_index = CHUNK_EMPTY
  · have hc : s.chunk_curr = [] := by
      by_contra hc
      have := (h.when_populated hc).1
      omega
    rw [if_pos hidx, if_pos (Or.inl hc)]
  · have hle : s.chunk_index + 1 ≤ s.chunk_elem_max := by
      by_cases hc : s.chunk_curr = []
      · rcases (h.when_empty hc).2 with he | he
        · exact absurd he hidx
        · omega
      · have := (h.when_populated hc).1
        omega
    have hm : (s.chunk_index + 1) % SIZE_MOD = s.chunk_index + 1 :=
      Nat.mod_eq_of_lt (by omega)
    rw [if_neg hidx]
    dsimp only
    rw [hm]
    by_cases hfull : s.chunk_curr = [] ∨ s.chunk_index + 1 = s.chunk_elem_max
    · have he : s.chunk_index + 1 = s.chunk_elem_max := by
        rcases hfull with hc | he
        · rcases (h.when_empty hc).2 with he | he
          · exact absurd he hidx
          · omega
        · exact he
      rw [if_pos hfull, if_pos he, acquire_chunk_index]
    · rw [if_neg hfull, if_neg (fun he => hfull (Or.inr he))]

theorem slots_down_length (S : Nat) (c : StackChunk) (n : Nat) :
    (slots_down S c n).length = n := by
  induction n with
  | zero => rfl
  | succ n ih => simp [slots_down, ih]

theorem full_chunks_length (S cem : Nat) (cs : List StackChunk) :
    (full_chunks S cem cs).length = cs.length * cem := by
  induction cs with
  | nil => simp [full_chunks]
  | cons c cs ih => simp [full_chunks, slots_down_length, ih, Nat.succ_mul]; omega

theorem slots_down_congr (S : Nat) (c1 c2 : StackChunk) (n : Nat)
    (h : ∀ i, i < n → read_slot S c1 i = read_slot S c2 i) :
    slots_down S c1 n = slots_down S c2 n := by
  induction n with
  | zero => rfl
  | succ n ih =>
    simp only [slots_down]
    rw [h n (Nat.lt_succ_self n), ih (fun i hi => h i (Nat.lt_succ_of_lt hi))]

/-- When the head chunk is full (or there is none) the live elements are all
slots of all active chunks. -/
theorem live_eq_full {s : Stack}
    (hfull : s.chunk_curr = [] ∨ s.chunk_index + 1 = s.chunk_elem_max) :
    s.live = full_chunks s.elem_size s.chunk_elem_max s.chunk_curr := by
  unfold Stack.live
  cases hc : s.chunk_curr with
  | nil => simp [full_chunks]
  | cons c older =>
    rcases hfull with h0 | h1
    · rw [hc] at h0; exact absurd h0 (by simp)
    · simp [full_chunks, h1]

/-- The number of live elements is `elem_num`. -/
theorem live_length {s : Stack} (h : s.wf) : s.live.length = s.elem_num := by
  unfold Stack.live
  cases hc : s.chunk_curr with
  | nil => simp [(h.when_empty hc).1]
  | cons c older =>
    have := (h.when_populated (by simp [hc])).2
    simp [hc] at this
    simp [slots_down_length, full_chunks_length, this]
    omega

/-- Behaviour of `push_raw` under the invariant: it returns, the pointer addresses slot
`chunk_index` of the head chunk, the invariant is kept, and below the new top
slot the live elements are the old ones. -/
theorem push_raw_spec {s : Stack} (h : s.wf) (junk : Nat → Byte) :
    ∃ s1 c older, s.push_raw junk = Except.ok (s1, some (s1.elem_size * s1.chunk_index)) ∧
      s1.wf ∧ s1.chunk_curr = c :: older ∧ s1.elem_num = s.elem_num + 1 ∧
      s1.elem_size = s.elem_size ∧ s1.chunk_elem_max = s.chunk_elem_max ∧
      slots_down s.elem_size c s1.chunk_index ++
        full_chunks s.elem_size s.chunk_elem_max older = s.live := by
  have hmax := params_ok_elem_max_lt h.params
  have hE := CHUNK_EMPTY_lt
  unfold sizeof_StackChunk at hmax
  have hp := h.params
  obtain ⟨hS, hpos, hreq⟩ := hp
  unfold Stack.push_raw
  rw [push_raw_advance_eq h junk]
  by_cases hfull : s.chunk_curr = [] ∨ s.chunk_index + 1 = s.chunk_elem_max
  · obtain ⟨c, fr, hacq, hclen, hfr, _⟩ := acquire_chunk_spec s junk h.free_size
    rw [if_pos hfull, hacq]
    have hnum : s.elem_num = s.chunk_curr.length * s.chunk_elem_max := by
      rcases hfull with h0 | h1
      · simp [h0, (h.when_empty h0).1]
      · by_cases h0 : s.chunk_curr = []
        · simp [h0, (h.when_empty h0).1]
        · have := (h.when_populated h0).2
          obtain ⟨l, hl⟩ : ∃ l, s.chunk_curr.length = l + 1 :=
            ⟨s.chunk_curr.length - 1, by
              have := List.length_pos.mpr h0; omega⟩
          rw [hl] at this ⊢
          rw [Nat.succ_mul]
          simp at this
          omega
    refine ⟨{ s with chunk_curr := c :: s.chunk_curr, chunk_free := fr, chunk_index := 0,
                     elem_num := s.elem_num + 1 }, c, s.chunk_curr, ?_, ?_, rfl, rfl, rfl, rfl, ?_⟩
    · simp [Stack.get_last_elem, hpos]
      unfold CHUNK_EMPTY SIZE_MOD; norm_num
    · refine ⟨⟨hS, hpos, hreq⟩, ?_, hfr, ?_, ?_⟩
      · intro c1 hc1
        simp only [List.mem_cons] at hc1
        rcases hc1 with rfl | hc1
        · exact hclen
        · exact h.curr_size c1 hc1
      · intro hcon; simp at hcon
      · intro _
        refine ⟨hpos, ?_⟩
        simp [hnum]
    · simp [slots_down, live_eq_full hfull]
  · rw [if_neg hfull]
    have hc : s.chunk_curr ≠ [] := fun hc => hfull (Or.inl hc)
    have hlt : s.chunk_index + 1 ≠ s.chunk_elem_max := fun hc => hfull (Or.inr hc)
    obtain ⟨hi, hnum⟩ := h.when_populated hc
    obtain ⟨c, older, hco⟩ : ∃ c older, s.chunk_curr = c :: older := by
      cases hcc : s.chunk_curr with
      | nil => exact absurd hcc hc
      | cons c older => exact ⟨c, older, rfl⟩
    have hslot := params_ok_slot h.params (i := s.chunk_index + 1) (by omega)
    refine ⟨{ s with chunk_index := s.chunk_index + 1, elem_num := s.elem_num + 1 }, c, older,
      ?_, ?_, hco, rfl, rfl, rfl, ?_⟩
    · have hne : s.chunk_index + 1 ≠ CHUNK_EMPTY := by omega
      have hlt2 : s.chunk_index + 1 < s.chunk_elem_max := by omega
      simp [Stack.get_last_elem, hco, hne, hlt2, Nat.mod_eq_of_lt hslot.2]
    · refine ⟨⟨hS, hpos, hreq⟩, h.curr_size, h.free_size, fun hcon => absurd hcon hc, ?_⟩
      intro _
      refine ⟨by show s.chunk_index + 1 < s.chunk_elem_max; omega, ?_⟩
      show s.elem_num + 1 = (s.chunk_curr.length - 1) * s.chunk_elem_max + (s.chunk_index + 1) + 1
      omega
    · show slots_down s.elem_size c (s.chunk_index + 1) ++ _ = _
      simp [Stack.live, hco]

theorem read_slot_length {S cem : Nat} {c : StackChunk} {i : Nat}
    (hlen : c.data.length = S * cem) (hi : S * i + S ≤ S * cem) :
    (read_slot S c i).length = S := by
  unfold read_slot
  exact read_bytes_length _ _ _ (by omega)

/-- Writing slot `i` of a chunk does not change any other slot. -/
theorem read_slot_memcpy_other (S : Nat) (c : StackChunk) (src : List Byte) (i j : Nat)
    (hij : j ≠ i) :
    read_slot S { data := memcpy c.data (S * i) src S } j = read_slot S c j := by
  unfold read_slot
  apply read_bytes_memcpy_disjoint
  rcases Nat.lt_or_gt_of_ne hij with hlt | hgt
  · left
    have := Nat.mul_le_mul_left S (Nat.succ_le_of_lt hlt)
    rw [Nat.mul_succ] at this
    exact this
  · right
    have := Nat.mul_le_mul_left S (Nat.succ_le_of_lt hgt)
    rw [Nat.mul_succ] at this
    exact this

/-- Writing slot `i` of a chunk stores the first `S` bytes of the source there. -/
theorem read_slot_memcpy_same (S : Nat) (c : StackChunk) (src : List Byte) (i : Nat)
    (hroom : S * i + S ≤ c.data.length) (hsrc : S ≤ src.length) :
    read_slot S { data := memcpy c.data (S * i) src S } i = src.take S := by
  unfold read_slot
  exact read_bytes_memcpy_same _ _ _ _ hroom hsrc

/-- Behaviour of `push` under the invariant: it returns, keeps the invariant, and (the source
having `elem_size` bytes to copy) puts them on top of the live elements. -/
theorem push_spec {s : Stack} (h : s.wf) (junk : Nat → Byte) (src : List Byte) :
    ∃ s1, s.push junk src = Except.ok s1 ∧ s1.wf ∧ s1.chunk_curr ≠ [] ∧
      s1.elem_num = s.elem_num + 1 ∧ s1.elem_size = s.elem_size ∧
      s1.chunk_elem_max = s.chunk_elem_max ∧
      (s.elem_size ≤ src.length → s1.live = src.take s.elem_size :: s.live) := by
  obtain ⟨s1, c, older, hraw, hwf, hcurr, hnum, hS, hcem, hlive⟩ := push_raw_spec h junk
  have hidx := (hwf.when_populated (by simp [hcurr])).1
  have hclen := hwf.curr_size c (by simp [hcurr])
  have hslot := (params_ok_slot hwf.params hidx).1
  refine ⟨{ s1 with chunk_curr :=
      { data := memcpy c.data (s1.elem_size * s1.chunk_index) src s1.elem_size } :: older },
    ?_, ?_, by simp, hnum, hS, hcem, ?_⟩
  · unfold Stack.push
    rw [hraw]
    simp only [hcurr]
  · refine ⟨hwf.params, ?_, hwf.free_size, fun hcon => by simp at hcon, ?_⟩
    · intro c1 hc1
      simp only [List.mem_cons] at hc1
      rcases hc1 with rfl | hc1
      · simpa [memcpy_length] using hclen
      · exact hwf.curr_size c1 (by simp [hcurr, hc1])
    · intro _
      have := hwf.when_populated (by simp [hcurr])
      simpa [hcurr] using this
  · intro hsrc
    show slots_down s1.elem_size _ (s1.chunk_index + 1) ++ full_chunks s1.elem_size _ older = _
    rw [← hlive, hS, hcem]
    simp only [slots_down, List.cons_append]
    rw [← hS, read_slot_memcpy_same _ _ _ _ (by omega) (by omega)]
    rw [slots_down_congr s1.elem_size _ c s1.chunk_index
      (fun i hi => read_slot_memcpy_other _ _ _ _ _ (by omega))]

/-! ## Discard and pop -/

theorem discard_of_empty {s : Stack} (hc : s.chunk_curr = []) : s.discard = s := by
  simp [Stack.discard, Stack.is_empty, hc]

/-- Behaviour of `discard` on a populated stack whose cursor is not at slot 0. -/
theorem discard_inside {s : Stack} (h : s.wf) (hc : s.chunk_curr ≠ [])
    (hi : 0 < s.chunk_index) :
    s.discard = { s with elem_num := s.elem_num - 1, chunk_index := s.chunk_index - 1 } := by
  have hmax := params_ok_elem_max_lt h.params
  have hE := CHUNK_EMPTY_lt
  obtain ⟨hlt, hnum⟩ := h.when_populated hc
  have hdec : size_t_dec s.chunk_index = s.chunk_index - 1 :=
    size_t_dec_pos hi (by omega)
  have hne : s.chunk_index - 1 ≠ CHUNK_EMPTY := by omega
  have hn0 : s.elem_num ≠ 0 := by omega
  have hemp : s.is_empty = false := by
    cases hcc : s.chunk_curr with
    | nil => exact absurd hcc hc
    | cons c older => simp [Stack.is_empty, hcc]
  unfold Stack.discard
  simp [hemp, hdec, hne, hn0]

/-- Behaviour of `discard` on a populated stack whose cursor is at slot 0: the head chunk
is retired to the free list. -/
theorem discard_retire {s : Stack} (h : s.wf) {c : StackChunk} {older : List StackChunk}
    (hc : s.chunk_curr = c :: older) (hi : s.chunk_index = 0) :
    s.discard = { s with elem_num := s.elem_num - 1, chunk_curr := older,
                         chunk_free := c :: s.chunk_free,
                         chunk_index := s.chunk_elem_max - 1 } := by
  have hmax := params_ok_elem_max_lt h.params
  obtain ⟨_, hpos, _⟩ := h.params
  obtain ⟨hlt, hnum⟩ := h.when_populated (by simp [hc])
  have hdec : size_t_dec s.chunk_elem_max = s.chunk_elem_max - 1 :=
    size_t_dec_pos hpos (by omega)
  have hn0 : s.elem_num ≠ 0 := by omega
  unfold Stack.discard
  simp [Stack.is_empty, hc, hi, size_t_dec_zero, hdec, hn0]

/-- Correctness of `discard`: it keeps the invariant and removes the top live element. -/
theorem discard_spec {s : Stack} (h : s.wf) :
    s.discard.wf ∧ s.discard.live = s.live.tail ∧ s.discard.elem_size = s.elem_size ∧
      s.discard.chunk_elem_max = s.chunk_elem_max := by
  by_cases hc : s.chunk_curr = []
  · rw [discard_of_empty hc]
    exact ⟨h, by simp [Stack.live, hc], rfl, rfl⟩
  · obtain ⟨c, older, hco⟩ : ∃ c older, s.chunk_curr = c :: older := by
      cases hcc : s.chunk_curr with
      | nil => exact absurd hcc hc
      | cons c older => exact ⟨c, older, rfl⟩
    obtain ⟨hlt, hnum⟩ := h.when_populated hc
    obtain ⟨hS, hpos, hreq⟩ := h.params
    by_cases hi : s.chunk_index = 0
    · rw [discard_retire h hco hi]
      refine ⟨⟨⟨hS, hpos, hreq⟩, ?_, ?_, ?_, ?_⟩, ?_, rfl, rfl⟩
      · intro c1 hc1
        exact h.curr_size c1 (by simp [hco]; exact Or.inr hc1)
      · intro c1 hc1
        simp only [List.mem_cons] at hc1
        rcases hc1 with rfl | hc1
        · exact h.curr_size c1 (by simp [hco])
        · exact h.free_size c1 hc1
      · intro ho
        have ho1 : older = [] := ho
        refine ⟨?_, Or.inr rfl⟩
        show s.elem_num - 1 = 0
        rw [hnum, hco, ho1, hi]; simp
      · intro ho
        have ho1 : older ≠ [] := ho
        refine ⟨by show s.chunk_elem_max - 1 < s.chunk_elem_max; omega, ?_⟩
        show s.elem_num - 1 = (older.length - 1) * s.chunk_elem_max + (s.chunk_elem_max - 1) + 1
        obtain ⟨l, hl⟩ : ∃ l, older.length = l + 1 :=
          ⟨older.length - 1, by have := List.length_pos.mpr ho1; omega⟩
        rw [hnum, hco, hi, List.length_cons, hl]
        simp only [Nat.add_sub_cancel, Nat.succ_mul]
        omega
      · simp only [Stack.live, hco, hi]
        cases older with
        | nil => simp [slots_down, full_chunks]
        | cons c1 o1 =>
          obtain ⟨m, hm⟩ : ∃ m, s.chunk_elem_max = m + 1 :=
            ⟨s.chunk_elem_max - 1, by omega⟩
          simp [slots_down, full_chunks, hm]
    · rw [discard_inside h hc (by omega)]
      refine ⟨⟨⟨hS, hpos, hreq⟩, h.curr_size, h.free_size, fun hcon => absurd hcon hc, ?_⟩,
        ?_, rfl, rfl⟩
      · intro _
        refine ⟨by show s.chunk_index - 1 < s.chunk_elem_max; omega, ?_⟩
        show s.elem_num - 1 = (s.chunk_curr.length - 1) * s.chunk_elem_max +
          (s.chunk_index - 1) + 1
        omega
      · obtain ⟨i, hi1⟩ : ∃ i, s.chunk_index = i + 1 := ⟨s.chunk_index - 1, by omega⟩
        simp [Stack.live, hco, hi1, slots_down]

theorem discard_elem_num {s : Stack} (h : s.wf) : s.discard.elem_num = s.elem_num - 1 := by
  have h1 := live_length (discard_spec h).1
  rw [(discard_spec h).2.1, List.length_tail, live_length h] at h1
  exact h1.symm

/-- The invariant links emptiness of the active list, the counter and the live
elements. -/
theorem wf_empty_iff {s : Stack} (h : s.wf) :
    (s.is_empty = true ↔ s.elem_num = 0) ∧ (s.chunk_curr = [] ↔ s.elem_num = 0) := by
  have key : s.chunk_curr = [] ↔ s.elem_num = 0 := by
    constructor
    · intro hc; exact (h.when_empty hc).1
    · intro hn
      by_contra hc
      have := (h.when_populated hc).2
      omega
  refine ⟨?_, key⟩
  rw [← key]
  simp [Stack.is_empty, List.isEmpty_iff]

/-- Behaviour of `pop` under the invariant: the state is that of `discard`; the destination
receives the top live element, or zeros when there is none. -/
theorem pop_eq {s : Stack} (h : s.wf) (buf : List Byte) (off : Nat) :
    s.pop buf off =
      (s.discard,
        match s.live with
        | [] => memset_zero buf off s.elem_size
        | v :: _ => memcpy buf off v s.elem_size) := by
  by_cases hc : s.chunk_curr = []
  · simp [Stack.pop, Stack.is_empty, hc, discard_of_empty hc, Stack.live]
  · obtain ⟨c, older, hco⟩ : ∃ c older, s.chunk_curr = c :: older := by
      cases hcc : s.chunk_curr with
      | nil => exact absurd hcc hc
      | cons c older => exact ⟨c, older, rfl⟩
    obtain ⟨hlt, hnum⟩ := h.when_populated hc
    have hmax := params_ok_elem_max_lt h.params
    have hE := CHUNK_EMPTY_lt
    have hne : s.chunk_index ≠ CHUNK_EMPTY := by omega
    have hslot := params_ok_slot h.params hlt
    unfold Stack.pop
    simp only [Stack.is_empty, Stack.get_last_elem, hco, Stack.live, slots_down, read_slot,
      read_bytes, List.cons_append]
    simp [hne, Nat.mod_eq_of_lt hslot.2, memcpy_take_src]

/-! ## Clear, bulk pops, reachable states -/

/-- Behaviour of `clear`: it appends the active list to the free list in every case. -/
theorem clear_eq (s : Stack) :
    s.clear = { s with elem_num := 0, chunk_index := CHUNK_EMPTY,
                       chunk_free := s.chunk_free ++ s.chunk_curr, chunk_curr := [] } := by
  unfold Stack.clear
  cases hf : s.chunk_free with
  | nil => simp
  | cons f fs =>
    cases hc : s.chunk_curr with
    | nil => simp
    | cons c cs => simp

theorem clear_wf {s : Stack} (h : s.wf) : s.clear.wf := by
  rw [clear_eq]
  refine ⟨h.params, by simp, ?_, fun _ => ⟨rfl, Or.inl rfl⟩, fun hc => absurd rfl hc⟩
  intro c hc
  simp only [List.mem_append] at hc
  rcases hc with hc | hc
  · exact h.free_size c hc
  · exact h.curr_size c hc

theorem pop_state {s : Stack} (h : s.wf) (buf : List Byte) (off : Nat) :
    (s.pop buf off).1 = s.discard := by
  rw [pop_eq h]

/-- The state a `pop` produces does not depend on the destination. -/
theorem pop_state_indep (s : Stack) (buf1 buf2 : List Byte) (off1 off2 : Nat) :
    (s.pop buf1 off1).1 = (s.pop buf2 off2).1 := by
  unfold Stack.pop
  split
  · rfl
  · split <;> rfl

theorem discard_iterate_spec {s : Stack} (h : s.wf) (k : Nat) :
    (Stack.discard^[k] s).wf ∧ (Stack.discard^[k] s).live = s.live.drop k ∧
      (Stack.discard^[k] s).elem_size = s.elem_size ∧
      (Stack.discard^[k] s).chunk_elem_max = s.chunk_elem_max := by
  induction k generalizing s with
  | zero => exact ⟨h, by simp, rfl, rfl⟩
  | succ k ih =>
    obtain ⟨hw, hl, hS, hc⟩ := discard_spec h
    obtain ⟨hw1, hl1, hS1, hc1⟩ := ih hw
    rw [Function.iterate_succ_apply]
    refine ⟨hw1, ?_, by rw [hS1, hS], by rw [hc1, hc]⟩
    rw [hl1, hl, List.drop_tail]

theorem pop_n_loop_state {s : Stack} (h : s.wf) (k : Nat) (buf : List Byte) (off : Nat) :
    (Stack.pop_n_loop k s buf off).1 = Stack.discard^[k] s := by
  induction k generalizing s buf off with
  | zero => rfl
  | succ k ih =>
    simp only [Stack.pop_n_loop]
    rw [Function.iterate_succ_apply, ← pop_state h buf off]
    exact ih (by rw [pop_state h]; exact (discard_spec h).1) _ _

theorem pop_n_reverse_loop_state {s : Stack} (h : s.wf) (k : Nat) (buf : List Byte)
    (dst : Nat) : (Stack.pop_n_reverse_loop k s buf dst).1 = Stack.discard^[k] s := by
  induction k generalizing s buf dst with
  | zero => rfl
  | succ k ih =>
    simp only [Stack.pop_n_reverse_loop]
    rw [Function.iterate_succ_apply, ← pop_state h buf (dst - s.elem_size)]
    exact ih (by rw [pop_state h]; exact (discard_spec h).1) _ _

/-- Every call that returns keeps the invariant. -/
theorem step_wf {s s1 : Stack} (h : s.wf) (op : Op) (hs : s.step op = Except.ok s1) :
    s1.wf := by
  cases op with
  | push junk src =>
    obtain ⟨s2, hp, hw, _⟩ := push_spec h junk src
    simp only [Stack.step, hp] at hs
    injection hs with hs
    exact hs ▸ hw
  | push_raw junk =>
    obtain ⟨s2, c, older, hp, hw, _⟩ := push_raw_spec h junk
    simp only [Stack.step, hp] at hs
    injection hs with hs
    exact hs ▸ hw
  | pop buf off =>
    simp only [Stack.step] at hs
    injection hs with hs
    rw [← hs, pop_state h]
    exact (discard_spec h).1
  | pop_n buf off n =>
    simp only [Stack.step, Stack.pop_n] at hs
    split at hs
    · rename_i r hr
      split at hr
      · injection hr with hr
        injection hs with hs
        rw [← hs, ← hr, pop_n_loop_state h]
        exact (discard_iterate_spec h n).1
      · exact absurd hr (by simp)
    · exact absurd hs (by simp)
  | pop_n_reverse buf off n =>
    simp only [Stack.step, Stack.pop_n_reverse] at hs
    split at hs
    · rename_i r hr
      split at hr
      · injection hr with hr
        injection hs with hs
        rw [← hs, ← hr, pop_n_reverse_loop_state h]
        exact (discard_iterate_spec h n).1
      · exact absurd hr (by simp)
    · exact absurd hs (by simp)
  | discard =>
    simp only [Stack.step] at hs
    injection hs with hs
    exact hs ▸ (discard_spec h).1
  | clear =>
    simp only [Stack.step] at hs
    injection hs with hs
    exact hs ▸ clear_wf h

/-- Every reachable state satisfies the invariant. -/
theorem Reachable.wf {s : Stack} (h : Reachable s) : s.wf := by
  induction h with
  | fresh fuel S B s hc hp => exact create_wf hc hp
  | step s op s1 _ hs ih => exact step_wf ih op hs

/-! ## What the pops leave in the destination -/

theorem slots_down_mem {S : Nat} {c : StackChunk} {n : Nat} {v : List Byte}
    (hv : v ∈ slots_down S c n) : ∃ i, i < n ∧ v = read_slot S c i := by
  induction n with
  | zero => simp [slots_down] at hv
  | succ n ih =>
    simp only [slots_down, List.mem_cons] at hv
    rcases hv with rfl | hv
    · exact ⟨n, Nat.lt_succ_self n, rfl⟩
    · obtain ⟨i, hi, he⟩ := ih hv
      exact ⟨i, Nat.lt_succ_of_lt hi, he⟩

theorem full_chunks_mem {S cem : Nat} {cs : List StackChunk} {v : List Byte}
    (hv : v ∈ full_chunks S cem cs) : ∃ c ∈ cs, ∃ i, i < cem ∧ v = read_slot S c i := by
  induction cs with
  | nil => simp [full_chunks] at hv
  | cons c cs ih =>
    simp only [full_chunks, List.mem_append] at hv
    rcases hv with hv | hv
    · obtain ⟨i, hi, he⟩ := slots_down_mem hv
      exact ⟨c, by simp, i, hi, he⟩
    · obtain ⟨c1, hc1, i, hi, he⟩ := ih hv
      exact ⟨c1, by simp [hc1], i, hi, he⟩

/-- Every live element has `elem_size` bytes. -/
theorem live_elem_length {s : Stack} (h : s.wf) {v : List Byte} (hv : v ∈ s.live) :
    v.length = s.elem_size := by
  unfold Stack.live at hv
  cases hc : s.chunk_curr with
  | nil => simp [hc] at hv
  | cons c older =>
    have hidx := (h.when_populated (by simp [hc])).1
    simp only [hc, List.mem_append] at hv
    rcases hv with hv | hv
    · obtain ⟨i, hi, rfl⟩ := slots_down_mem hv
      exact read_slot_length (h.curr_size c (by simp [hc]))
        (params_ok_slot h.params (by omega)).1
    · obtain ⟨c1, hc1, i, hi, rfl⟩ := full_chunks_mem hv
      exact read_slot_length (h.curr_size c1 (by simp [hc, hc1]))
        (params_ok_slot h.params hi).1

/-- The destination of a `pop`: its length is kept, the `elem_size` bytes at
the destination are the top element (zeros when there is none), every byte
range apart from them is unchanged. -/
theorem pop_buf_spec {s : Stack} (h : s.wf) (buf : List Byte) (off : Nat) :
    (s.pop buf off).2.length = buf.length ∧
      (off + s.elem_size ≤ buf.length →
        read_bytes (s.pop buf off).2 off s.elem_size =
          (s.live.head?).getD (List.replicate s.elem_size 0)) ∧
      (∀ o n, o + n ≤ off ∨ off + s.elem_size ≤ o →
        read_bytes (s.pop buf off).2 o n = read_bytes buf o n) := by
  rw [pop_eq h]
  cases hl : s.live with
  | nil =>
    refine ⟨memset_zero_length _ _ _, fun hroom => ?_, fun o n hd => ?_⟩
    · simpa using read_bytes_memset_same buf off s.elem_size hroom
    · exact read_bytes_memset_disjoint _ _ _ _ _ hd
  | cons v rest =>
    have hv : v.length = s.elem_size := live_elem_length h (by simp [hl])
    refine ⟨memcpy_length _ _ _ _, fun hroom => ?_, fun o n hd => ?_⟩
    · have := read_bytes_memcpy_same buf off v s.elem_size hroom (by omega)
      simpa [← hv] using this
    · exact read_bytes_memcpy_disjoint _ _ _ _ _ _ hd

/-- The destination of the `pop_n` loop: slot `i` receives the `i`-th live
element counted from the top. -/
theorem pop_n_loop_buf (k : Nat) : ∀ {s : Stack}, s.wf → ∀ (buf : List Byte) (off : Nat),
    k ≤ s.live.length → off + k * s.elem_size ≤ buf.length →
    (Stack.pop_n_loop k s buf off).2.length = buf.length ∧
      (∀ i, i < k →
        some (read_bytes (Stack.pop_n_loop k s buf off).2 (off + i * s.elem_size) s.elem_size)
          = s.live[i]?) ∧
      (∀ o n, o + n ≤ off ∨ off + k * s.elem_size ≤ o →
        read_bytes (Stack.pop_n_loop k s buf off).2 o n = read_bytes buf o n) := by
  induction k with
  | zero =>
    intro s _ buf off _ _
    exact ⟨rfl, fun i hi => absurd hi (Nat.not_lt_zero i), fun _ _ _ => rfl⟩
  | succ k ih =>
    intro s h buf off hk hroom
    obtain ⟨hlen, htop, hframe⟩ := pop_buf_spec h buf off
    obtain ⟨hw, hl, hS, _⟩ := discard_spec h
    have hst := pop_state h buf off
    rw [Nat.succ_mul] at hroom
    obtain ⟨v, rest, hvr⟩ : ∃ v rest, s.live = v :: rest := by
      cases hlv : s.live with
      | nil => rw [hlv] at hk; simp at hk
      | cons v rest => exact ⟨v, rest, rfl⟩
    have hrest : (s.pop buf off).1.live = rest := by rw [hst, hl, hvr]; rfl
    have hS1 : (s.pop buf off).1.elem_size = s.elem_size := by rw [hst, hS]
    have hw1 : (s.pop buf off).1.wf := by rw [hst]; exact hw
    obtain ⟨ilen, islots, iframe⟩ := ih hw1 (s.pop buf off).2 (off + s.elem_size)
      (by rw [hrest]; rw [hvr] at hk; simpa using hk)
      (by rw [hS1, hlen]; omega)
    simp only [Stack.pop_n_loop, hS1]
    rw [hS1] at islots iframe
    refine ⟨by rw [ilen, hlen], ?_, ?_⟩
    · intro i hi
      cases i with
      | zero =>
        rw [Nat.zero_mul, Nat.add_zero, iframe off s.elem_size (Or.inl (Nat.le_refl _)),
          htop (by omega), hvr]
        simp
      | succ j =>
        have := islots j (by omega)
        rw [hrest] at this
        rw [hvr, List.getElem?_cons_succ, ← this, Nat.succ_mul]
        have e : off + s.elem_size + j * s.elem_size = off + (j * s.elem_size + s.elem_size) := by
          omega
        rw [e]
    · intro o n hd
      rw [Nat.succ_mul] at hd
      rw [iframe o n (by omega), hframe o n (by omega)]

/-- The destination of the `pop_n_reverse` loop: slot `k - 1 - i` receives the
`i`-th live element counted from the top. -/
theorem pop_n_reverse_loop_buf (k : Nat) : ∀ {s : Stack}, s.wf →
    ∀ (buf : List Byte) (off : Nat),
    k ≤ s.live.length → off + k * s.elem_size ≤ buf.length →
    (Stack.pop_n_reverse_loop k s buf (off + k * s.elem_size)).2.length = buf.length ∧
      (∀ i, i < k →
        some (read_bytes (Stack.pop_n_reverse_loop k s buf (off + k * s.elem_size)).2
            (off + (k - 1 - i) * s.elem_size) s.elem_size) = s.live[i]?) ∧
      (∀ o n, o + n ≤ off ∨ off + k * s.elem_size ≤ o →
        read_bytes (Stack.pop_n_reverse_loop k s buf (off + k * s.elem_size)).2 o n =
          read_bytes buf o n) := by
  induction k with
  | zero =>
    intro s _ buf off _ _
    exact ⟨rfl, fun i hi => absurd hi (Nat.not_lt_zero i), fun _ _ _ => rfl⟩
  | succ k ih =>
    intro s h buf off hk hroom
    have hdst : off + (k + 1) * s.elem_size - s.elem_size = off + k * s.elem_size := by
      rw [Nat.succ_mul]; omega
    obtain ⟨hlen, htop, hframe⟩ := pop_buf_spec h buf (off + k * s.elem_size)
    obtain ⟨hw, hl, hS, _⟩ := discard_spec h
    have hst := pop_state h buf (off + k * s.elem_size)
    rw [Nat.succ_mul] at hroom
    obtain ⟨v, rest, hvr⟩ : ∃ v rest, s.live = v :: rest := by
      cases hlv : s.live with
      | nil => rw [hlv] at hk; simp at hk
      | cons v rest => exact ⟨v, rest, rfl⟩
    have hrest : (s.pop buf (off + k * s.elem_size)).1.live = rest := by
      rw [hst, hl, hvr]; rfl
    have hS1 : (s.pop buf (off + k * s.elem_size)).1.elem_size = s.elem_size := by
      rw [hst, hS]
    have hw1 : (s.pop buf (off + k * s.elem_size)).1.wf := by rw [hst]; exact hw
    obtain ⟨ilen, islots, iframe⟩ := ih hw1 (s.pop buf (off + k * s.elem_size)).2 off
      (by rw [hrest]; rw [hvr] at hk; simpa using hk)
      (by rw [hS1, hlen]; omega)
    simp only [Stack.pop_n_reverse_loop, hdst]
    rw [hS1] at islots iframe ilen
    refine ⟨by rw [ilen, hlen], ?_, ?_⟩
    · intro i hi
      cases i with
      | zero =>
        have e : k + 1 - 1 - 0 = k := by omega
        rw [e, iframe (off + k * s.elem_size) s.elem_size (Or.inr (Nat.le_refl _)),
          htop (by omega), hvr]
        simp
      | succ j =>
        have := islots j (by omega)
        rw [hrest] at this
        have e : k + 1 - 1 - (j + 1) = k - 1 - j := by omega
        rw [hvr, List.getElem?_cons_succ, ← this, e]
    · intro o n hd
      rw [Nat.succ_mul] at hd
      rw [iframe o n (by omega), hframe o n (by omega)]

/-! ## Sequences of calls -/

theorem discard_elem_size (s : Stack) : s.discard.elem_size = s.elem_size := by
  obtain ⟨curr, free, idx, cem, S, num⟩ := s
  cases curr with
  | nil => rfl
  | cons c older =>
    simp only [Stack.discard, Stack.is_empty, List.isEmpty_cons, Bool.false_eq_true, if_false]
    split <;> rfl

theorem pop_elem_size (s : Stack) (buf : List Byte) (off : Nat) :
    (s.pop buf off).1.elem_size = s.elem_size := by
  unfold Stack.pop
  by_cases he : s.is_empty = true
  · rw [if_pos he]
  · rw [if_neg he]
    cases s.get_last_elem with
    | none => rfl
    | some src =>
      cases hc : s.chunk_curr with
      | nil => rfl
      | cons c older => exact discard_elem_size s

/-- One more turn of the `pop_n` loop is one more `pop` into the next slot. -/
theorem pop_n_loop_succ (k : Nat) : ∀ (s : Stack) (buf : List Byte) (off : Nat),
    Stack.pop_n_loop (k + 1) s buf off =
      (Stack.pop_n_loop k s buf off).1.pop (Stack.pop_n_loop k s buf off).2
        (off + k * s.elem_size) := by
  induction k with
  | zero =>
    intro s buf off
    simp [Stack.pop_n_loop]
  | succ k ih =>
    intro s buf off
    have hS := pop_elem_size s buf off
    have step : ∀ m, Stack.pop_n_loop (m + 1) s buf off =
        Stack.pop_n_loop m (s.pop buf off).1 (s.pop buf off).2
          (off + (s.pop buf off).1.elem_size) := fun m => rfl
    rw [step (k + 1), ih, step k, hS]
    have e : off + s.elem_size + k * s.elem_size = off + (k + 1) * s.elem_size := by
      rw [Nat.succ_mul]; omega
    rw [e]

/-- The `pop_n` loop is `k` sequential pops into consecutive slots. -/
theorem pop_n_loop_eq_sequential (s : Stack) (buf : List Byte) (off k : Nat) :
    Stack.pop_n_loop k s buf off = sequential_pops s buf off k := by
  induction k with
  | zero => rfl
  | succ k ih => rw [pop_n_loop_succ, ih]; rfl

/-- Pushing a list of elements puts them on top of the live elements, last
pushed first. -/
theorem run_push_ops {s : Stack} (h : s.wf) (pvs : List ((Nat → Byte) × List Byte))
    (hv : ∀ p ∈ pvs, p.2.length = s.elem_size) :
    ∃ s1, s.run (push_ops pvs) = Except.ok s1 ∧ s1.wf ∧
      s1.live = (pvs.map fun p => p.2).reverse ++ s.live ∧ s1.elem_size = s.elem_size := by
  induction pvs generalizing s with
  | nil => exact ⟨s, rfl, h, by simp, rfl⟩
  | cons p pvs ih =>
    obtain ⟨s1, hp, hw, _, _, hS, _, hl⟩ := push_spec h p.1 p.2
    have hlen := hv p (by simp)
    obtain ⟨s2, hr, hw2, hl2, hS2⟩ := ih hw (fun q hq => by rw [hS]; exact hv q (by simp [hq]))
    refine ⟨s2, ?_, hw2, ?_, by rw [hS2, hS]⟩
    · simp only [push_ops, List.map_cons, Stack.run, Stack.step, hp]
      exact hr
    · rw [hl2, hl (by omega), List.take_of_length_le (by omega)]
      simp

/-- Successive pops deliver the live elements from the top. -/
theorem pop_each_spec (dsts : List (List Byte × Nat)) : ∀ {s : Stack}, s.wf →
    dsts.length ≤ s.live.length → (∀ d ∈ dsts, d.2 + s.elem_size ≤ d.1.length) →
    (s.pop_each dsts).1 = Stack.discard^[dsts.length] s ∧
      (s.pop_each dsts).2 = s.live.take dsts.length := by
  induction dsts with
  | nil => intro s _ _ _; exact ⟨rfl, by simp [Stack.pop_each]⟩
  | cons d ds ih =>
    intro s h hlen hroom
    obtain ⟨v, rest, hvr⟩ : ∃ v rest, s.live = v :: rest := by
      cases hlv : s.live with
      | nil => rw [hlv] at hlen; simp at hlen
      | cons v rest => exact ⟨v, rest, rfl⟩
    obtain ⟨hw, hl, hS, _⟩ := discard_spec h
    have hst := pop_state h d.1 d.2
    have htop := (pop_buf_spec h d.1 d.2).2.1 (hroom d (by simp))
    have hrest : (s.pop d.1 d.2).1.live = rest := by rw [hst, hl, hvr]; rfl
    obtain ⟨i1, i2⟩ := ih (s := (s.pop d.1 d.2).1) (by rw [hst]; exact hw)
      (by rw [hrest]; rw [hvr] at hlen; simpa using hlen)
      (fun e he => by rw [hst, hS]; exact hroom e (by simp [he]))
    simp only [Stack.pop_each, List.length_cons, Function.iterate_succ_apply]
    refine ⟨by rw [i1, hst], ?_⟩
    rw [i2, htop, hrest, hvr]
    simp

/-- Count bookkeeping along a run of pushes, pops and discards. -/
theorem run_count {s : Stack} (h : s.wf) (ops : List Op)
    (hops : ∀ op ∈ ops, op.is_push = true ∨ op.is_removal = true) :
    ∃ s1, s.run ops = Except.ok s1 ∧ s1.wf ∧
      s1.elem_num + removals_on_nonempty s ops = s.elem_num + push_count ops := by
  induction ops generalizing s with
  | nil => exact ⟨s, rfl, h, by simp [removals_on_nonempty, push_count]⟩
  | cons op ops ih =>
    have hrest : ∀ o ∈ ops, o.is_push = true ∨ o.is_removal = true :=
      fun o ho => hops o (by simp [ho])
    have hhead := hops op (by simp)
    have hemp := (wf_empty_iff h).1
    have hdn := discard_elem_num h
    have hdis : (if s.is_empty = true then 0 else 1) + s.discard.elem_num = s.elem_num := by
      by_cases he : s.is_empty = true
      · have := hemp.mp he
        rw [if_pos he, hdn]; omega
      · have : s.elem_num ≠ 0 := fun hz => he (hemp.mpr hz)
        rw [if_neg he, hdn]; omega
    have hrem : ∀ s2, (if (true && !s.is_empty) = true then 1 else 0) + s2 =
        (if s.is_empty = true then 0 else 1) + s2 := by
      intro s2
      cases s.is_empty <;> simp
    cases op with
    | push junk src =>
      obtain ⟨s1, hp, hw, _, hn, _⟩ := push_spec h junk src
      obtain ⟨s2, hr, hw2, hc⟩ := ih hw hrest
      refine ⟨s2, by simp only [Stack.run, Stack.step, hp]; exact hr, hw2, ?_⟩
      have e1 : removals_on_nonempty s (Op.push junk src :: ops) = removals_on_nonempty s1 ops := by
        simp [removals_on_nonempty, Stack.step, hp, Op.is_removal]
      have e2 : push_count (Op.push junk src :: ops) = push_count ops + 1 := by
        simp [push_count, Op.is_push]
      rw [e1, e2]; omega
    | push_raw junk =>
      obtain ⟨s1, c, older, hp, hw, _, hn, _⟩ := push_raw_spec h junk
      obtain ⟨s2, hr, hw2, hc⟩ := ih hw hrest
      refine ⟨s2, by simp only [Stack.run, Stack.step, hp]; exact hr, hw2, ?_⟩
      have e1 : removals_on_nonempty s (Op.push_raw junk :: ops) = removals_on_nonempty s1 ops := by
        simp [removals_on_nonempty, Stack.step, hp, Op.is_removal]
      have e2 : push_count (Op.push_raw junk :: ops) = push_count ops + 1 := by
        simp [push_count, Op.is_push]
      rw [e1, e2]; omega
    | pop buf off =>
      have hst := pop_state h buf off
      obtain ⟨s2, hr, hw2, hc⟩ := ih (discard_spec h).1 hrest
      refine ⟨s2, by simp only [Stack.run, Stack.step, hst]; exact hr, hw2, ?_⟩
      have e1 : removals_on_nonempty s (Op.pop buf off :: ops) =
          (if s.is_empty = true then 0 else 1) + removals_on_nonempty s.discard ops := by
        simp only [removals_on_nonempty, Stack.step, hst, Op.is_removal]
        exact hrem _
      have e2 : push_count (Op.pop buf off :: ops) = push_count ops := by
        simp [push_count, Op.is_push]
      rw [e1, e2]; omega
    | discard =>
      obtain ⟨s2, hr, hw2, hc⟩ := ih (discard_spec h).1 hrest
      refine ⟨s2, by simp only [Stack.run, Stack.step]; exact hr, hw2, ?_⟩
      have e1 : removals_on_nonempty s (Op.discard :: ops) =
          (if s.is_empty = true then 0 else 1) + removals_on_nonempty s.discard ops := by
        simp only [removals_on_nonempty, Stack.step, Op.is_removal]
        exact hrem _
      have e2 : push_count (Op.discard :: ops) = push_count ops := by
        simp [push_count, Op.is_push]
      rw [e1, e2]; omega
    | pop_n buf off n => simp [Op.is_push, Op.is_removal] at hhead
    | pop_n_reverse buf off n => simp [Op.is_push, Op.is_removal] at hhead
    | clear => simp [Op.is_push, Op.is_removal] at hhead

/-! ## Concrete stacks: proofs -/

theorem byte_stack_create : Stack.create 1 1 64 = some byte_stack := by decide

theorem byte_stack_params_ok : byte_stack.params_ok := by
  unfold Stack.params_ok byte_stack sizeof_StackChunk SIZE_MOD
  norm_num

theorem byte_stack_reachable : Reachable byte_stack :=
  Reachable.fresh 1 1 64 byte_stack byte_stack_create byte_stack_params_ok

theorem byte_stack_push_7 : byte_stack.step (Op.push stale_bytes [7]) = Except.ok byte_stack_7 := by
  rfl

theorem byte_stack_7_reachable : Reachable byte_stack_7 :=
  Reachable.step byte_stack (Op.push stale_bytes [7]) byte_stack_7 byte_stack_reachable
    byte_stack_push_7

theorem byte_stack_7_push_8 :
    byte_stack_7.step (Op.push stale_bytes [8]) = Except.ok byte_stack_7_8 := by
  rfl

theorem byte_stack_7_8_reachable : Reachable byte_stack_7_8 :=
  Reachable.step byte_stack_7 (Op.push stale_bytes [8]) byte_stack_7_8 byte_stack_7_reachable
    byte_stack_7_push_8

theorem int_stack_create : BLI_stack_new 1 4 = some int_stack := by decide

theorem int_stack_params_ok : int_stack.params_ok := by
  unfold Stack.params_ok int_stack sizeof_StackChunk SIZE_MOD
  norm_num

/-! ## The claims of the specification -/

/-- C1. LIFO law: pushing `v1 .. vn` (each of `elem_size` bytes) onto a freshly
created stack succeeds for every `n`, and `n` pops then deliver
`vn, ..., v1` in that order and leave the stack empty. -/
theorem lifo_law (fuel S B : Nat) (s0 : Stack) (hc : Stack.create fuel S B = some s0)
    (hp : s0.params_ok) (pvs : List ((Nat → Byte) × List Byte))
    (hv : ∀ p ∈ pvs, p.2.length = S)
    (dsts : List (List Byte × Nat)) (hn : dsts.length = pvs.length)
    (hroom : ∀ d ∈ dsts, d.2 + S ≤ d.1.length) :
    ∃ s1, s0.run (push_ops pvs) = Except.ok s1 ∧ s1.count = pvs.length ∧
      (s1.pop_each dsts).2 = (pvs.map fun p => p.2).reverse ∧
      (s1.pop_each dsts).1.is_empty = true := by
  have hw0 := create_wf hc hp
  obtain ⟨hcurr, _, _, _, hS⟩ := create_is_empty hc
  have hl0 : s0.live = [] := by simp [Stack.live, hcurr]
  obtain ⟨s1, hrun, hw1, hl1, hS1⟩ := run_push_ops hw0 pvs (fun p hp1 => by rw [hS]; exact hv p hp1)
  rw [hl0, List.append_nil] at hl1
  have hlen : s1.live.length = pvs.length := by simp [hl1]
  obtain ⟨hst, hout⟩ := pop_each_spec dsts hw1 (by omega)
    (fun d hd => by rw [hS1, hS]; exact hroom d hd)
  obtain ⟨hwn, hln, _, _⟩ := discard_iterate_spec hw1 dsts.length
  refine ⟨s1, hrun, ?_, ?_, ?_⟩
  · rw [Stack.count, ← live_length hw1, hlen]
  · rw [hout, List.take_of_length_le (by omega), hl1]
  · rw [hst, (wf_empty_iff hwn).1, ← live_length hwn, hln]
    simp; omega

/-- C1 on the scenario of the test suite: four-byte elements, default chunk
budget, push 1, 2, 3, pop three times. -/
theorem lifo_law_witness :
    ∃ s1, int_stack.run (push_ops [(stale_bytes, [1, 0, 0, 0]), (stale_bytes, [2, 0, 0, 0]),
        (stale_bytes, [3, 0, 0, 0])]) = Except.ok s1 ∧ s1.count = 3 ∧
      (s1.pop_each [([0, 0, 0, 0], 0), ([0, 0, 0, 0], 0), ([0, 0, 0, 0], 0)]).2 =
        [[3, 0, 0, 0], [2, 0, 0, 0], [1, 0, 0, 0]] ∧
      (s1.pop_each [([0, 0, 0, 0], 0), ([0, 0, 0, 0], 0), ([0, 0, 0, 0], 0)]).1.is_empty = true :=
  lifo_law 1 4 CHUNK_SIZE_DEFAULT int_stack int_stack_create int_stack_params_ok
    [(stale_bytes, [1, 0, 0, 0]), (stale_bytes, [2, 0, 0, 0]), (stale_bytes, [3, 0, 0, 0])]
    (by simp)
    [([0, 0, 0, 0], 0), ([0, 0, 0, 0], 0), ([0, 0, 0, 0], 0)] (by simp) (by simp)

/-- C2. Push/pop round trip: in every reachable state, `push(v)` followed by
`pop(dst)` writes `v` into `dst` and leaves `count()` and the logical contents
as they were before the push. -/
theorem push_pop_round_trip (s : Stack) (hr : Reachable s) (junk : Nat → Byte)
    (v : List Byte) (hv : v.length = s.elem_size) (buf : List Byte) (off : Nat)
    (hroom : off + s.elem_size ≤ buf.length) :
    ∃ s1, s.push junk v = Except.ok s1 ∧
      read_bytes (s1.pop buf off).2 off s.elem_size = v ∧
      (s1.pop buf off).1.count = s.count ∧
      (s1.pop buf off).1.contents = s.contents := by
  have hw := hr.wf
  obtain ⟨s1, hp, hw1, _, hn, hS, _, hl⟩ := push_spec hw junk v
  have hl1 : s1.live = v :: s.live := by
    rw [hl (by omega), List.take_of_length_le (by omega)]
  obtain ⟨hwd, hld, _, _⟩ := discard_spec hw1
  have hst := pop_state hw1 buf off
  have htop := (pop_buf_spec hw1 buf off).2.1 (by rw [hS]; exact hroom)
  have hlive : (s1.pop buf off).1.live = s.live := by rw [hst, hld, hl1]; rfl
  refine ⟨s1, hp, ?_, ?_, ?_⟩
  · rw [← hS, htop, hl1]; rfl
  · rw [Stack.count, Stack.count, ← live_length (hst ▸ hwd), hlive, live_length hw]
  · rw [Stack.contents, hlive]; rfl

/-- C2 on the first test of the suite: push 42 on a new stack, pop it. -/
theorem push_pop_round_trip_witness :
    ∃ s1, byte_stack.push stale_bytes [42] = Except.ok s1 ∧
      read_bytes (s1.pop [0, 0] 1).2 1 byte_stack.elem_size = [42] ∧
      (s1.pop [0, 0] 1).1.count = byte_stack.count ∧
      (s1.pop [0, 0] 1).1.contents = byte_stack.contents :=
  push_pop_round_trip byte_stack byte_stack_reachable stale_bytes [42] rfl [0, 0] 1 (by decide)

/-- C3. Count consistency: a sequence of push, pop and discard calls on a
freshly created stack runs to completion, and `count()` afterwards is the
number of pushes minus the number of pops and discards executed while the
stack was non-empty. -/
theorem count_consistency (fuel S B : Nat) (s0 : Stack)
    (hc : Stack.create fuel S B = some s0) (hp : s0.params_ok) (ops : List Op)
    (hops : ∀ op ∈ ops, op.is_push = true ∨ op.is_removal = true) :
    ∃ s, s0.run ops = Except.ok s ∧
      removals_on_nonempty s0 ops ≤ push_count ops ∧
      s.count = push_count ops - removals_on_nonempty s0 ops := by
  obtain ⟨s, hrun, _, hcount⟩ := run_count (create_wf hc hp) ops hops
  have h0 := (create_is_empty hc).2.2.2.1
  refine ⟨s, hrun, by omega, ?_⟩
  rw [Stack.count]; omega

/-- C3 on a concrete sequence: discard on empty, push, push, pop, pop, pop. -/
theorem count_consistency_witness :
    ∃ s, byte_stack.run [Op.discard, Op.push stale_bytes [1], Op.push_raw stale_bytes,
        Op.pop [0] 0, Op.discard, Op.pop [0] 0] = Except.ok s ∧
      removals_on_nonempty byte_stack [Op.discard, Op.push stale_bytes [1],
        Op.push_raw stale_bytes, Op.pop [0] 0, Op.discard, Op.pop [0] 0] ≤
        push_count [Op.discard, Op.push stale_bytes [1], Op.push_raw stale_bytes,
          Op.pop [0] 0, Op.discard, Op.pop [0] 0] ∧
      s.count = push_count [Op.discard, Op.push stale_bytes [1], Op.push_raw stale_bytes,
          Op.pop [0] 0, Op.discard, Op.pop [0] 0] -
        removals_on_nonempty byte_stack [Op.discard, Op.push stale_bytes [1],
          Op.push_raw stale_bytes, Op.pop [0] 0, Op.discard, Op.pop [0] 0] :=
  count_consistency 1 1 64 byte_stack byte_stack_create byte_stack_params_ok
    [Op.discard, Op.push stale_bytes [1], Op.push_raw stale_bytes, Op.pop [0] 0, Op.discard,
      Op.pop [0] 0]
    (by simp [Op.is_push, Op.is_removal])

/-- C4. Empty-pop safety: in every reachable state with `is_empty()` true,
`pop(dst)` returns, sets the `elem_size` bytes of `dst` to zero, touches no
other byte of the buffer, and leaves the stack state unchanged (still empty,
`count() == 0`). -/
theorem empty_pop_safety (s : Stack) (hr : Reachable s) (he : s.is_empty = true)
    (buf : List Byte) (off : Nat) (hroom : off + s.elem_size ≤ buf.length) :
    (s.pop buf off).1 = s ∧
      read_bytes (s.pop buf off).2 off s.elem_size = List.replicate s.elem_size 0 ∧
      (s.pop buf off).2.length = buf.length ∧
      (∀ o n, o + n ≤ off ∨ off + s.elem_size ≤ o →
        read_bytes (s.pop buf off).2 o n = read_bytes buf o n) ∧
      (s.pop buf off).1.is_empty = true ∧ (s.pop buf off).1.count = 0 := by
  have hw := hr.wf
  have hcurr : s.chunk_curr = [] := by
    simpa [Stack.is_empty, List.isEmpty_iff] using he
  have hst : (s.pop buf off).1 = s := by rw [pop_state hw, discard_of_empty hcurr]
  obtain ⟨hlen, htop, hframe⟩ := pop_buf_spec hw buf off
  have hl : s.live = [] := by simp [Stack.live, hcurr]
  refine ⟨hst, ?_, hlen, hframe, by rw [hst]; exact he, ?_⟩
  · rw [htop hroom, hl]; rfl
  · rw [hst]; exact (wf_empty_iff hw).1.mp he

/-- C4 on a new stack. -/
theorem empty_pop_safety_witness :
    (byte_stack.pop [9, 9, 9] 1).1 = byte_stack ∧
      read_bytes (byte_stack.pop [9, 9, 9] 1).2 1 byte_stack.elem_size =
        List.replicate byte_stack.elem_size 0 ∧
      (byte_stack.pop [9, 9, 9] 1).2.length = [9, 9, 9].length ∧
      (∀ o n, o + n ≤ 1 ∨ 1 + byte_stack.elem_size ≤ o →
        read_bytes (byte_stack.pop [9, 9, 9] 1).2 o n = read_bytes [9, 9, 9] o n) ∧
      (byte_stack.pop [9, 9, 9] 1).1.is_empty = true ∧
      (byte_stack.pop [9, 9, 9] 1).1.count = 0 :=
  empty_pop_safety byte_stack byte_stack_reachable rfl [9, 9, 9] 1 (by decide)

/-- C5. Emptiness invariant: a freshly created stack is empty; in every
reachable state `is_empty()` holds if and only if `count() == 0`; and after any
push (copying or raw), which always returns, `is_empty()` is false. -/
theorem emptiness_invariant (s : Stack) (hr : Reachable s) :
    (∀ fuel S B s0, Stack.create fuel S B = some s0 → s0.is_empty = true ∧ s0.count = 0) ∧
      (s.is_empty = true ↔ s.count = 0) ∧
      (∀ junk src, ∃ s1, s.push junk src = Except.ok s1 ∧ s1.is_empty = false) ∧
      (∀ junk, ∃ s1 p, s.push_raw junk = Except.ok (s1, p) ∧ s1.is_empty = false) := by
  have hw := hr.wf
  refine ⟨?_, (wf_empty_iff hw).1, ?_, ?_⟩
  · intro fuel S B s0 hc
    obtain ⟨hcurr, _, _, hnum, _⟩ := create_is_empty hc
    exact ⟨by simp [Stack.is_empty, hcurr], hnum⟩
  · intro junk src
    obtain ⟨s1, hp, _, hne, _⟩ := push_spec hw junk src
    refine ⟨s1, hp, ?_⟩
    cases hcc : s1.chunk_curr with
    | nil => exact absurd hcc hne
    | cons c older => simp [Stack.is_empty, hcc]
  · intro junk
    obtain ⟨s1, c, older, hp, _, hcc, _⟩ := push_raw_spec hw junk
    exact ⟨s1, _, hp, by simp [Stack.is_empty, hcc]⟩

/-- C5 on the stack that holds one element. -/
theorem emptiness_invariant_witness :
    (∀ fuel S B s0, Stack.create fuel S B = some s0 → s0.is_empty = true ∧ s0.count = 0) ∧
      (byte_stack_7.is_empty = true ↔ byte_stack_7.count = 0) ∧
      (∀ junk src, ∃ s1, byte_stack_7.push junk src = Except.ok s1 ∧ s1.is_empty = false) ∧
      (∀ junk, ∃ s1 p, byte_stack_7.push_raw junk = Except.ok (s1, p) ∧ s1.is_empty = false) :=
  emptiness_invariant byte_stack_7 byte_stack_7_reachable
/-- C6. With element size 1 and a chunk budget of 33 bytes no doubling happens
(33 > 32), the header is subtracted, and the chunk holds 17 elements, fewer than
`CHUNK_ELEM_MIN`. -/
theorem calculate_chunk_elem_max_below_min :
    calculate_chunk_elem_max 1 1 33 = SizingResult.value 17 ∧ 17 < CHUNK_ELEM_MIN := by
  decide

/-- C7. Sizing formula: for `S > 0`, `B > 0`, with `k` the least number of
doublings such that `B * 2 ^ k > 32 * S` and no `size_t` overflow
(`B * 2 ^ k < 2 ^ 64`), `calculate_chunk_elem_max(S, B)` returns (given fuel for
its `k + 1` loop tests) `floor((B * 2 ^ k - sizeof(StackChunk)) / S)`. -/
theorem calculate_chunk_elem_max_formula (S B k fuel : Nat) (hS : 0 < S) (hB : 0 < B)
    (hleast : ∀ j, j < k → B * 2 ^ j ≤ 32 * S) (hk : 32 * S < B * 2 ^ k)
    (hno : B * 2 ^ k < SIZE_MOD) (hfuel : k < fuel) :
    calculate_chunk_elem_max fuel S B =
      SizingResult.value ((B * 2 ^ k - sizeof_StackChunk) / S) :=
  calculate_chunk_elem_max_exact S B k fuel hS hB hleast hk hno hfuel

/-- C7, the example of the claim: element size 4 and the default budget 65536
need no doubling and give `(65536 - 16) / 4`. -/
theorem calculate_chunk_elem_max_formula_witness :
    calculate_chunk_elem_max 1 4 CHUNK_SIZE_DEFAULT =
      SizingResult.value ((CHUNK_SIZE_DEFAULT * 2 ^ 0 - sizeof_StackChunk) / 4) :=
  calculate_chunk_elem_max_formula 4 CHUNK_SIZE_DEFAULT 0 1 (by decide) (by decide)
    (fun j hj => absurd hj (Nat.not_lt_zero j)) (by decide) (by decide) (by decide)

/-- C8. Bulk pop equivalence: in every reachable state and for every
`k <= count()`, `pop_n(buf, k)` returns the state and the buffer contents of `k`
sequential `pop()` calls into the consecutive `elem_size`-byte slots
`0 .. k - 1`; slot `i` holds the `i`-th most recently pushed element (slot 0 the
most recent one). -/
theorem pop_n_equivalence (s : Stack) (hr : Reachable s) (k : Nat) (hk : k ≤ s.count)
    (buf : List Byte) (off : Nat) (hroom : off + k * s.elem_size ≤ buf.length) :
    s.pop_n buf off k = Except.ok (sequential_pops s buf off k) ∧
      (∀ i, i < k →
        some (read_bytes (sequential_pops s buf off k).2 (off + i * s.elem_size) s.elem_size) =
          s.live[i]?) := by
  have hw := hr.wf
  have hlen : k ≤ s.live.length := by rw [live_length hw]; exact hk
  refine ⟨?_, ?_⟩
  · unfold Stack.pop_n
    rw [if_pos hk, pop_n_loop_eq_sequential]
  · rw [← pop_n_loop_eq_sequential]
    exact (pop_n_loop_buf k hw buf off hlen hroom).2.1

/-- C8 on the stack that holds the byte 7. -/
theorem pop_n_equivalence_witness :
    byte_stack_7.pop_n [9, 9, 9] 1 1 = Except.ok (sequential_pops byte_stack_7 [9, 9, 9] 1 1) ∧
      (∀ i, i < 1 →
        some (read_bytes (sequential_pops byte_stack_7 [9, 9, 9] 1 1).2
          (1 + i * byte_stack_7.elem_size) byte_stack_7.elem_size) = byte_stack_7.live[i]?) :=
  pop_n_equivalence byte_stack_7 byte_stack_7_reachable 1 (by decide) [9, 9, 9] 1 (by decide)

/-- C9. Reverse bulk pop: in every reachable state and for every
`k <= count()`, `pop_n_reverse(buf, k)` ends in the same stack state as
`pop_n(buf1, k)`, slot `i` of `buf` equals slot `k - 1 - i` of `buf1`, and `buf`
holds the `k` popped elements in their original push order (slot `i` is element
number `count() - k + i` of the logical contents). -/
theorem pop_n_reverse_order (s : Stack) (hr : Reachable s) (k : Nat) (hk : k ≤ s.count)
    (buf : List Byte) (off : Nat) (hroom : off + k * s.elem_size ≤ buf.length)
    (hsize : buf.length < SIZE_MOD)
    (buf1 : List Byte) (off1 : Nat) (hroom1 : off1 + k * s.elem_size ≤ buf1.length) :
    ∃ r r1, s.pop_n_reverse buf off k = Except.ok r ∧ s.pop_n buf1 off1 k = Except.ok r1 ∧
      r.1 = r1.1 ∧
      (∀ i, i < k →
        read_bytes r.2 (off + i * s.elem_size) s.elem_size =
          read_bytes r1.2 (off1 + (k - 1 - i) * s.elem_size) s.elem_size) ∧
      (∀ i, i < k →
        some (read_bytes r.2 (off + i * s.elem_size) s.elem_size) =
          s.contents[s.count - k + i]?) := by
  have hw := hr.wf
  have hlen : k ≤ s.live.length := by rw [live_length hw]; exact hk
  have hmod : (s.elem_size * k) % SIZE_MOD = k * s.elem_size := by
    rw [Nat.mul_comm, Nat.mod_eq_of_lt (by omega)]
  obtain ⟨_, hrev, _⟩ := pop_n_reverse_loop_buf k hw buf off hlen hroom
  obtain ⟨_, hfwd, _⟩ := pop_n_loop_buf k hw buf1 off1 hlen hroom1
  refine ⟨_, _, by unfold Stack.pop_n_reverse; rw [if_pos hk, hmod],
    by unfold Stack.pop_n; rw [if_pos hk], ?_, ?_, ?_⟩
  · rw [pop_n_reverse_loop_state hw, pop_n_loop_state hw]
  · intro i hi
    have h1 := hrev (k - 1 - i) (by omega)
    have h2 := hfwd (k - 1 - i) (by omega)
    have e : k - 1 - (k - 1 - i) = i := by omega
    rw [e] at h1
    exact Option.some.inj (h1.trans h2.symm)
  · intro i hi
    have h1 := hrev (k - 1 - i) (by omega)
    have e : k - 1 - (k - 1 - i) = i := by omega
    rw [e] at h1
    rw [h1, Stack.contents, Stack.count, ← live_length hw]
    have hidx : s.live.length - k + i < s.live.length := by omega
    rw [List.getElem?_reverse hidx]
    congr 1
    omega

/-- C9 on the stack that holds the bytes 7 and 8 (8 on top), both popped: the
forward pop writes 8, 7 and the reverse pop writes 7, 8, the push order. -/
theorem pop_n_reverse_order_witness :
    (∃ r r1, byte_stack_7_8.pop_n_reverse [9, 9, 9] 1 2 = Except.ok r ∧
      byte_stack_7_8.pop_n [6, 6] 0 2 = Except.ok r1 ∧ r.1 = r1.1 ∧
      (∀ i, i < 2 →
        read_bytes r.2 (1 + i * byte_stack_7_8.elem_size) byte_stack_7_8.elem_size =
          read_bytes r1.2 (0 + (2 - 1 - i) * byte_stack_7_8.elem_size)
            byte_stack_7_8.elem_size) ∧
      (∀ i, i < 2 →
        some (read_bytes r.2 (1 + i * byte_stack_7_8.elem_size) byte_stack_7_8.elem_size) =
          byte_stack_7_8.contents[byte_stack_7_8.count - 2 + i]?)) ∧
      byte_stack_7_8.pop_n_reverse [9, 9, 9] 1 2 =
        Except.ok (byte_stack_7_8.discard.discard, [9, 7, 8]) ∧
      byte_stack_7_8.pop_n [6, 6] 0 2 =
        Except.ok (byte_stack_7_8.discard.discard, [8, 7]) ∧
      byte_stack_7_8.contents = [[7], [8]] :=
  ⟨pop_n_reverse_order byte_stack_7_8 byte_stack_7_8_reachable 2 (by decide) [9, 9, 9] 1
      (by decide) (by unfold SIZE_MOD; decide) [6, 6] 0 (by decide),
    rfl, rfl, rfl⟩

/-- C10. Bulk pop precondition: in every reachable state `pop_n(dst, n)` and
`pop_n_reverse(dst, n)` stop at their assertion if and only if `n > count()`;
they then stop in the unchanged state, before any element is removed; when
`n <= count()` they return and `count()` has decreased by exactly `n`. -/
theorem bulk_pop_precondition (s : Stack) (hr : Reachable s) (buf : List Byte) (off n : Nat) :
    ((∃ e, s.pop_n buf off n = Except.error e) ↔ s.count < n) ∧
      ((∃ e, s.pop_n_reverse buf off n = Except.error e) ↔ s.count < n) ∧
      (s.count < n →
        s.pop_n buf off n = Except.error s ∧ s.pop_n_reverse buf off n = Except.error s) ∧
      (n ≤ s.count →
        ∃ r r1, s.pop_n buf off n = Except.ok r ∧ s.pop_n_reverse buf off n = Except.ok r1 ∧
          r.1.count + n = s.count ∧ r1.1.count + n = s.count) := by
  have hw := hr.wf
  obtain ⟨hwn, hln, _, _⟩ := discard_iterate_spec hw n
  have hcount : n ≤ s.count → (Stack.discard^[n] s).count + n = s.count := by
    intro hn
    rw [Stack.count, Stack.count, ← live_length hwn, hln, List.length_drop, live_length hw]
    unfold Stack.count at hn
    omega
  by_cases hn : n ≤ s.count
  · have h1 : s.pop_n buf off n = Except.ok (Stack.pop_n_loop n s buf off) := by
      unfold Stack.pop_n; rw [if_pos hn]
    have h2 : s.pop_n_reverse buf off n =
        Except.ok (Stack.pop_n_reverse_loop n s buf (off + (s.elem_size * n) % SIZE_MOD)) := by
      unfold Stack.pop_n_reverse; rw [if_pos hn]
    refine ⟨?_, ?_, fun hlt => absurd hn (by omega), fun _ => ⟨_, _, h1, h2, ?_, ?_⟩⟩
    · rw [h1]
      exact ⟨fun ⟨e, he⟩ => (by cases he), fun hlt => absurd hn (by omega)⟩
    · rw [h2]
      exact ⟨fun ⟨e, he⟩ => (by cases he), fun hlt => absurd hn (by omega)⟩
    · rw [pop_n_loop_state hw]; exact hcount hn
    · rw [pop_n_reverse_loop_state hw]; exact hcount hn
  · have h1 : s.pop_n buf off n = Except.error s := by
      unfold Stack.pop_n; rw [if_neg hn]
    have h2 : s.pop_n_reverse buf off n = Except.error s := by
      unfold Stack.pop_n_reverse; rw [if_neg hn]
    exact ⟨⟨fun _ => by omega, fun _ => ⟨s, h1⟩⟩, ⟨fun _ => by omega, fun _ => ⟨s, h2⟩⟩,
      fun _ => ⟨h1, h2⟩, fun hle => absurd hle hn⟩

/-- C10 on the stack that holds one element, asked for two. -/
theorem bulk_pop_precondition_witness :
    ((∃ e, byte_stack_7.pop_n [9, 9, 9] 0 2 = Except.error e) ↔ byte_stack_7.count < 2) ∧
      ((∃ e, byte_stack_7.pop_n_reverse [9, 9, 9] 0 2 = Except.error e) ↔
        byte_stack_7.count < 2) ∧
      (byte_stack_7.count < 2 →
        byte_stack_7.pop_n [9, 9, 9] 0 2 = Except.error byte_stack_7 ∧
          byte_stack_7.pop_n_reverse [9, 9, 9] 0 2 = Except.error byte_stack_7) ∧
      (2 ≤ byte_stack_7.count →
        ∃ r r1, byte_stack_7.pop_n [9, 9, 9] 0 2 = Except.ok r ∧
          byte_stack_7.pop_n_reverse [9, 9, 9] 0 2 = Except.ok r1 ∧
          r.1.count + 2 = byte_stack_7.count ∧ r1.1.count + 2 = byte_stack_7.count) :=
  bulk_pop_precondition byte_stack_7 byte_stack_7_reachable [9, 9, 9] 0 2

/-! ## Chunk acquisition: proofs -/

/-- The acquisition test of `push_raw` decides between its two branches. -/
theorem push_raw_advance_acquires (s : Stack) (junk : Nat → Byte) :
    s.push_raw_advance junk =
      if s.push_acquires = true then s.acquire_chunk junk
      else { s with chunk_index := (s.chunk_index + 1) % SIZE_MOD } := by
  unfold Stack.push_raw_advance Stack.push_acquires
  by_cases h1 : s.chunk_index = CHUNK_EMPTY
  · rw [if_pos h1, if_pos (by rw [Bool.or_eq_true]; exact Or.inl (decide_eq_true h1))]
  · rw [if_neg h1]
    show (if (s.chunk_index + 1) % SIZE_MOD = s.chunk_elem_max then
        Stack.acquire_chunk { s with chunk_index := (s.chunk_index + 1) % SIZE_MOD } junk
      else { s with chunk_index := (s.chunk_index + 1) % SIZE_MOD }) = _
    by_cases h2 : (s.chunk_index + 1) % SIZE_MOD = s.chunk_elem_max
    · rw [if_pos h2, if_pos (by rw [Bool.or_eq_true]; exact Or.inr (decide_eq_true h2)),
        acquire_chunk_index]
    · have hf : ¬ ((decide (s.chunk_index = CHUNK_EMPTY) ||
          decide ((s.chunk_index + 1) % SIZE_MOD = s.chunk_elem_max)) = true) := by
        rw [Bool.or_eq_true]
        rintro (h | h)
        · exact h1 (of_decide_eq_true h)
        · exact h2 (of_decide_eq_true h)
      rw [if_neg h2, if_neg hf]

/-- In a reachable state the acquisition test succeeds exactly when there is
no active chunk or the head chunk is full. -/
theorem push_acquires_iff {s : Stack} (h : s.wf) :
    s.push_acquires = true ↔ (s.chunk_curr = [] ∨ s.chunk_index + 1 = s.chunk_elem_max) := by
  have hmax := params_ok_elem_max_lt h.params
  have hE := CHUNK_EMPTY_lt
  unfold sizeof_StackChunk at hmax
  obtain ⟨_, hpos, _⟩ := h.params
  unfold Stack.push_acquires
  rw [Bool.or_eq_true, decide_eq_true_eq, decide_eq_true_eq]
  by_cases hc : s.chunk_curr = []
  · constructor
    · intro _; exact Or.inl hc
    · intro _
      rcases (h.when_empty hc).2 with he | he
      · exact Or.inl he
      · right
        rw [Nat.mod_eq_of_lt (by omega)]; omega
  · have hi := (h.when_populated hc).1
    have hm : (s.chunk_index + 1) % SIZE_MOD = s.chunk_index + 1 :=
      Nat.mod_eq_of_lt (by omega)
    rw [hm]
    constructor
    · rintro (h1 | h1)
      · omega
      · exact Or.inr h1
    · rintro (h1 | h1)
      · exact absurd h1 hc
      · exact Or.inr h1

theorem push_raw_ok_state {s : Stack} {junk : Nat → Byte} {s1 : Stack} {p : Option Nat}
    (h : s.push_raw junk = Except.ok (s1, p)) :
    s1 = { s.push_raw_advance junk with elem_num := (s.push_raw_advance junk).elem_num + 1 } := by
  unfold Stack.push_raw at h
  generalize s.push_raw_advance junk = adv at h
  by_cases hc : ¬ adv.chunk_curr.isEmpty = true ∧ adv.chunk_index < adv.chunk_elem_max
  · simp only [hc, not_false_eq_true, and_self, if_true] at h
    injection h with h
    injection h with h1 h2
    exact h1.symm
  · simp only [hc, if_false] at h
    cases h

/-- The lists and the cursor after `push_raw`. -/
theorem push_raw_detail {s : Stack} (h : s.wf) (junk : Nat → Byte) :
    ∃ s1, s.push_raw junk = Except.ok (s1, some (s1.elem_size * s1.chunk_index)) ∧ s1.wf ∧
      s1.elem_num = s.elem_num + 1 ∧
      ((s.chunk_curr = [] ∨ s.chunk_index + 1 = s.chunk_elem_max) →
        s1.chunk_index = 0 ∧
          ((∃ c fr, s.chunk_free = c :: fr ∧ s1.chunk_curr = c :: s.chunk_curr ∧
              s1.chunk_free = fr) ∨
            (s.chunk_free = [] ∧ s1.chunk_curr = s.malloc_chunk junk :: s.chunk_curr ∧
              s1.chunk_free = []))) ∧
      (¬ (s.chunk_curr = [] ∨ s.chunk_index + 1 = s.chunk_elem_max) →
        s1.chunk_index = s.chunk_index + 1 ∧ s1.chunk_curr = s.chunk_curr ∧
          s1.chunk_free = s.chunk_free) := by
  obtain ⟨s1, c, older, hraw, hwf, _, hnum, _, _, _⟩ := push_raw_spec h junk
  have hst := push_raw_ok_state hraw
  rw [push_raw_advance_eq h junk] at hst
  refine ⟨s1, hraw, hwf, hnum, ?_, ?_⟩
  · intro hfull
    rw [if_pos hfull] at hst
    obtain ⟨c1, fr, hacq, _, _, hcase⟩ := acquire_chunk_spec s junk h.free_size
    rw [hacq] at hst
    subst hst
    refine ⟨rfl, ?_⟩
    rcases hcase with h1 | ⟨h1, h2, h3⟩
    · exact Or.inl ⟨c1, fr, h1, rfl, rfl⟩
    · exact Or.inr ⟨h1, by rw [h3], h2⟩
  · intro hfull
    rw [if_neg hfull] at hst
    subst hst
    exact ⟨rfl, rfl, rfl⟩

/-- The copying `push` changes the lists and the cursor as `push_raw` does;
only the bytes of the head chunk differ. -/
theorem push_of_push_raw {s : Stack} {junk : Nat → Byte} {s1 : Stack} {p : Option Nat}
    (h : s.push_raw junk = Except.ok (s1, p)) (src : List Byte) :
    ∃ s2, s.push junk src = Except.ok s2 ∧ s2.chunk_free = s1.chunk_free ∧
      s2.chunk_index = s1.chunk_index ∧ s2.chunk_curr.length = s1.chunk_curr.length ∧
      s2.chunk_curr.tail = s1.chunk_curr.tail ∧ s2.chunk_elem_max = s1.chunk_elem_max ∧
      s2.elem_num = s1.elem_num := by
  unfold Stack.push
  rw [h]
  cases p with
  | none => exact ⟨s1, rfl, rfl, rfl, rfl, rfl, rfl, rfl⟩
  | some off =>
    cases hc : s1.chunk_curr with
    | nil =>
      exact ⟨s1, by simp [hc], rfl, rfl, by rw [hc], by rw [hc], rfl, rfl⟩
    | cons c older =>
      exact ⟨{ s1 with chunk_curr :=
        { data := memcpy c.data off src s1.elem_size } :: older }, by simp only [hc], rfl, rfl,
        by simp, by simp, rfl, rfl⟩

/-- The lists and the cursor after the copying `push`. -/
theorem push_detail {s : Stack} (h : s.wf) (junk : Nat → Byte) (src : List Byte) :
    ∃ s2, s.push junk src = Except.ok s2 ∧ s2.wf ∧ s2.chunk_elem_max = s.chunk_elem_max ∧
      ((s.chunk_curr = [] ∨ s.chunk_index + 1 = s.chunk_elem_max) →
        s2.chunk_index = 0 ∧ s2.chunk_curr.length = s.chunk_curr.length + 1 ∧
          ((∃ c fr, s.chunk_free = c :: fr ∧ s2.chunk_free = fr) ∨
            (s.chunk_free = [] ∧ s2.chunk_free = []))) ∧
      (¬ (s.chunk_curr = [] ∨ s.chunk_index + 1 = s.chunk_elem_max) →
        s2.chunk_index = s.chunk_index + 1 ∧ s2.chunk_curr.length = s.chunk_curr.length ∧
          s2.chunk_free = s.chunk_free) := by
  obtain ⟨s1, hraw, _, _, hacq, hadv⟩ := push_raw_detail h junk
  obtain ⟨s2, hp, hfree, hidx, hlen, _, _, _⟩ := push_of_push_raw hraw src
  obtain ⟨s3, hp3, hw3, _, _, _, hcem3, _⟩ := push_spec h junk src
  have e : s3 = s2 := by
    rw [hp] at hp3
    injection hp3 with hp3
    exact hp3.symm
  subst e
  refine ⟨s3, hp, hw3, hcem3, ?_, ?_⟩
  · intro hfull
    obtain ⟨h0, hcase⟩ := hacq hfull
    refine ⟨by rw [hidx, h0], ?_, ?_⟩
    · rcases hcase with ⟨c, fr, _, hc, _⟩ | ⟨_, hc, _⟩ <;> rw [hlen, hc] <;> simp
    · rcases hcase with ⟨c, fr, hf, _, hf1⟩ | ⟨hf, _, hf1⟩
      · exact Or.inl ⟨c, fr, hf, by rw [hfree, hf1]⟩
      · exact Or.inr ⟨hf, by rw [hfree, hf1]⟩
  · intro hfull
    obtain ⟨h0, hc, hf⟩ := hadv hfull
    exact ⟨by rw [hidx, h0], by rw [hlen, hc], by rw [hfree, hf]⟩

/-- Pushes that fit into the head chunk and the chunks of the free list call
`malloc` never and keep the number of chunks. -/
theorem refill_no_alloc (pvs : List ((Nat → Byte) × List Byte)) : ∀ {t : Stack}, t.wf →
    pvs.length ≤ t.head_room + t.chunk_free.length * t.chunk_elem_max →
    ∃ t1, t.run (push_ops pvs) = Except.ok t1 ∧ allocations t (push_ops pvs) = 0 ∧
      t1.chunk_total = t.chunk_total := by
  induction pvs with
  | nil => intro t _ _; exact ⟨t, rfl, rfl, rfl⟩
  | cons p pvs ih =>
    intro t h hfit
    obtain ⟨_, hpos, _⟩ := h.params
    obtain ⟨t2, hp, hw2, hcem, hacq, hadv⟩ := push_detail h p.1 p.2
    have hrun : t.run (push_ops (p :: pvs)) = t2.run (push_ops pvs) := by
      simp only [push_ops, List.map_cons, Stack.run, Stack.step, hp]
    have halloc : allocations t (push_ops (p :: pvs)) =
        (if t.push_allocates = true then 1 else 0) + allocations t2 (push_ops pvs) := by
      simp only [push_ops, List.map_cons, allocations, Stack.step, hp, Op.is_push,
        Bool.true_and]
    simp only [List.length_cons] at hfit
    by_cases hfull : t.chunk_curr = [] ∨ t.chunk_index + 1 = t.chunk_elem_max
    · obtain ⟨h0, hlen, hcase⟩ := hacq hfull
      have hroom0 : t.head_room = 0 := by
        unfold Stack.head_room
        rcases hfull with hc | hc
        · rw [hc]
        · cases t.chunk_curr with
          | nil => rfl
          | cons c cs => show t.chunk_elem_max - 1 - t.chunk_index = 0; omega
      rw [hroom0, Nat.zero_add] at hfit
      rcases hcase with ⟨c, fr, hf, hf2⟩ | ⟨hf, _⟩
      · have hna : t.push_allocates = false := by
          simp [Stack.push_allocates, hf]
        have hne : t2.chunk_curr ≠ [] := by
          intro hc; rw [hc] at hlen; simp at hlen
        have hroom2 : t2.head_room = t.chunk_elem_max - 1 := by
          unfold Stack.head_room
          cases hcc : t2.chunk_curr with
          | nil => exact absurd hcc hne
          | cons c1 cs => show t2.chunk_elem_max - 1 - t2.chunk_index = _; rw [hcem, h0]; omega
        rw [hf, List.length_cons, Nat.succ_mul] at hfit
        obtain ⟨t1, hr1, ha1, ht1⟩ := ih hw2 (by rw [hroom2, hf2, hcem]; omega)
        refine ⟨t1, by rw [hrun]; exact hr1, by rw [halloc, hna, ha1]; rfl, ?_⟩
        rw [ht1]
        unfold Stack.chunk_total
        rw [hlen, hf2, hf, List.length_cons]
        omega
      · rw [hf] at hfit
        simp at hfit
    · obtain ⟨h0, hlen, hf⟩ := hadv hfull
      have hc : t.chunk_curr ≠ [] := fun hc => hfull (Or.inl hc)
      have hidx := (h.when_populated hc).1
      have hne1 : t.chunk_index + 1 ≠ t.chunk_elem_max := fun hc => hfull (Or.inr hc)
      have hna : t.push_allocates = false := by
        have : t.push_acquires = false := by
          rw [← Bool.not_eq_true]
          exact fun ha => hfull ((push_acquires_iff h).mp ha)
        simp [Stack.push_allocates, this]
      have hroom1 : t.head_room = t.chunk_elem_max - 1 - t.chunk_index := by
        unfold Stack.head_room
        cases hcc : t.chunk_curr with
        | nil => exact absurd hcc hc
        | cons c1 cs => rfl
      have hne2 : t2.chunk_curr ≠ [] := by
        intro hc2; rw [hc2] at hlen
        exact hc (List.length_eq_zero.mp hlen.symm)
      have hroom2 : t2.head_room = t.chunk_elem_max - 1 - (t.chunk_index + 1) := by
        unfold Stack.head_room
        cases hcc : t2.chunk_curr with
        | nil => exact absurd hcc hne2
        | cons c1 cs => show t2.chunk_elem_max - 1 - t2.chunk_index = _; rw [hcem, h0]
      obtain ⟨t1, hr1, ha1, ht1⟩ := ih hw2 (by rw [hroom2, hf, hcem]; omega)
      refine ⟨t1, by rw [hrun]; exact hr1, by rw [halloc, hna, ha1]; rfl, ?_⟩
      rw [ht1]
      unfold Stack.chunk_total
      rw [hlen, hf]

theorem elem_num_le_capacity {s : Stack} (h : s.wf) :
    s.elem_num ≤ s.chunk_curr.length * s.chunk_elem_max := by
  by_cases hc : s.chunk_curr = []
  · rw [(h.when_empty hc).1]; exact Nat.zero_le _
  · obtain ⟨hi, hn⟩ := h.when_populated hc
    obtain ⟨l, hl⟩ : ∃ l, s.chunk_curr.length = l + 1 :=
      ⟨s.chunk_curr.length - 1, by have := List.length_pos.mpr hc; omega⟩
    rw [hn, hl, Nat.succ_mul]
    simp only [Nat.add_sub_cancel]
    omega

theorem slots_down_getElem? (S : Nat) (c : StackChunk) (n j : Nat) (hj : j < n) :
    (slots_down S c n)[j]? = some (read_slot S c (n - 1 - j)) := by
  induction n generalizing j with
  | zero => exact absurd hj (Nat.not_lt_zero j)
  | succ n ih =>
    cases j with
    | zero => simp [slots_down]
    | succ j =>
      simp only [slots_down, List.getElem?_cons_succ]
      rw [ih j (by omega)]
      congr 2
      omega

/-! ## Chunk sizing under wrap-around: proofs -/

theorem doubling_loop_succ_le (m fuel c : Nat) (h : c ≤ m) :
    doubling_loop m (fuel + 1) c = doubling_loop m fuel ((c * 2) % SIZE_MOD) := by
  rw [doubling_loop, if_pos h]

theorem doubling_loop_succ_gt (m fuel c : Nat) (h : m < c) :
    doubling_loop m (fuel + 1) c = some c := by
  rw [doubling_loop, if_neg (by omega)]

/-- Once the budget has been shifted to zero the loop never exits. -/
theorem doubling_loop_zero (m : Nat) : ∀ fuel, doubling_loop m fuel 0 = none := by
  intro fuel
  induction fuel with
  | zero => rfl
  | succ f ih =>
    rw [doubling_loop_succ_le m f 0 (Nat.zero_le m)]
    simpa using ih

/-- Whenever the loop exits, the budget it exits with exceeds the bound. -/
theorem doubling_loop_exit_gt (m : Nat) : ∀ (fuel B c : Nat),
    doubling_loop m fuel B = some c → m < c := by
  intro fuel
  induction fuel with
  | zero => intro B c h; simp [doubling_loop] at h
  | succ f ih =>
    intro B c h
    by_cases hB : B ≤ m
    · rw [doubling_loop_succ_le m f B hB] at h
      exact ih _ c h
    · rw [doubling_loop_succ_gt m f B (by omega)] at h
      injection h with h
      omega

/-- The loop exits as soon as the budget exceeds the bound, provided that
happens before a doubling wraps. -/
theorem doubling_loop_terminates (m : Nat) : ∀ (k B fuel : Nat), m < B * 2 ^ k →
    B * 2 ^ k < SIZE_MOD → k < fuel →
    ∃ j, j ≤ k ∧ doubling_loop m fuel B = some (B * 2 ^ j) ∧ m < B * 2 ^ j := by
  intro k
  induction k with
  | zero =>
    intro B fuel hk _ hf
    obtain ⟨f, rfl⟩ : ∃ f, fuel = f + 1 := ⟨fuel - 1, by omega⟩
    rw [pow_zero, Nat.mul_one] at hk
    exact ⟨0, Nat.le_refl 0, by rw [pow_zero, Nat.mul_one, doubling_loop_succ_gt m f B hk],
      by rw [pow_zero, Nat.mul_one]; exact hk⟩
  | succ k ih =>
    intro B fuel hk hlt hf
    obtain ⟨f, rfl⟩ : ∃ f, fuel = f + 1 := ⟨fuel - 1, by omega⟩
    by_cases hB : B ≤ m
    · have hpow : B * 2 ^ (k + 1) = B * 2 * 2 ^ k := by ring
      have hone : 1 ≤ 2 ^ k := Nat.one_le_two_pow
      have hB2 : B * 2 < SIZE_MOD := by
        have : B * 2 * 1 ≤ B * 2 * 2 ^ k := Nat.mul_le_mul_left _ hone
        omega
      obtain ⟨j, hj, hloop, hgt⟩ := ih (B * 2) f (by omega) (by omega) (by omega)
      refine ⟨j + 1, by omega, ?_, ?_⟩
      · rw [doubling_loop_succ_le m f B hB, Nat.mod_eq_of_lt hB2, hloop]
        congr 1; ring
      · have : B * 2 ^ (j + 1) = B * 2 * 2 ^ j := by ring
        omega
    · exact ⟨0, Nat.zero_le _, by rw [pow_zero, Nat.mul_one, doubling_loop_succ_gt m f B (by omega)],
        by rw [pow_zero, Nat.mul_one]; omega⟩

/-- With the bound `2 ^ 63` a budget that is a power of two is doubled until
it wraps to zero. -/
theorem doubling_loop_pow_none : ∀ (d : Nat), d ≤ 63 → ∀ fuel,
    doubling_loop (2 ^ 63) fuel (2 ^ (63 - d)) = none := by
  intro d
  induction d with
  | zero =>
    intro _ fuel
    cases fuel with
    | zero => rfl
    | succ f =>
      rw [Nat.sub_zero, doubling_loop_succ_le _ f _ (Nat.le_refl _)]
      have : (2 ^ 63 * 2) % SIZE_MOD = 0 := by unfold SIZE_MOD; norm_num
      rw [this]
      exact doubling_loop_zero _ f
  | succ d ih =>
    intro hd fuel
    cases fuel with
    | zero => rfl
    | succ f =>
      have hle : 2 ^ (63 - (d + 1)) ≤ 2 ^ 63 := Nat.pow_le_pow_right (by norm_num) (by omega)
      have hstep : 2 ^ (63 - (d + 1)) * 2 = 2 ^ (63 - d) := by
        rw [← pow_succ]
        congr 1
        omega
      have hlt : 2 ^ (63 - d) < SIZE_MOD := by
        unfold SIZE_MOD
        exact Nat.pow_lt_pow_right (by norm_num) (by omega)
      rw [doubling_loop_succ_le _ f _ hle, hstep, Nat.mod_eq_of_lt hlt]
      exact ih (by omega) f

/-- For element size `2 ^ 58` and budget 1 the sizing never returns. -/
theorem sizing_diverges (fuel : Nat) :
    calculate_chunk_elem_max fuel (2 ^ 58) 1 = SizingResult.out_of_fuel := by
  have hm : (2 ^ 58 * CHUNK_ELEM_MIN) % SIZE_MOD = 2 ^ 63 := by
    unfold CHUNK_ELEM_MIN SIZE_MOD; norm_num
  have hloop := doubling_loop_pow_none 63 (Nat.le_refl _) fuel
  rw [Nat.sub_self, pow_zero] at hloop
  unfold calculate_chunk_elem_max
  simp only [hm, hloop]
  norm_num

/-! ## The claims of the specification, continued -/

/-- C11. Clear postcondition: `clear()` yields `count() == 0`, `is_empty()`
true, the cursor equal to `CHUNK_EMPTY`, an empty active list and a free list
equal to the old free list followed by the old active list; `elem_size` and
`chunk_elem_max` are unchanged.  This holds in every state, reachable or not. -/
theorem clear_postcondition (s : Stack) :
    s.clear.count = 0 ∧ s.clear.is_empty = true ∧ s.clear.chunk_index = CHUNK_EMPTY ∧
      s.clear.chunk_curr = [] ∧ s.clear.chunk_free = s.chunk_free ++ s.chunk_curr ∧
      s.clear.chunk_total = s.chunk_total ∧
      s.clear.elem_size = s.elem_size ∧ s.clear.chunk_elem_max = s.chunk_elem_max := by
  rw [clear_eq]
  refine ⟨rfl, rfl, rfl, rfl, rfl, ?_, rfl, rfl⟩
  simp [Stack.chunk_total]
  omega

/-- C12. Clear-then-reuse allocates nothing: in every reachable state holding
`n` elements, after `clear()` a sequence of `n` pushes returns, calls `malloc`
not once, and leaves the number of chunks owned by the stack (active plus free)
equal to the number before the clear. -/
theorem clear_then_reuse (s : Stack) (hr : Reachable s)
    (pvs : List ((Nat → Byte) × List Byte)) (hn : pvs.length = s.count) :
    ∃ s1, s.clear.run (push_ops pvs) = Except.ok s1 ∧
      allocations s.clear (push_ops pvs) = 0 ∧ s1.chunk_total = s.chunk_total := by
  have hw := hr.wf
  have hcap := elem_num_le_capacity hw
  have hfit : pvs.length ≤
      s.clear.head_room + s.clear.chunk_free.length * s.clear.chunk_elem_max := by
    rw [clear_eq]
    show pvs.length ≤ _ + (s.chunk_free ++ s.chunk_curr).length * s.chunk_elem_max
    rw [List.length_append, Nat.add_mul, hn, Stack.count]
    omega
  obtain ⟨s1, hrun, hal, htot⟩ := refill_no_alloc pvs (clear_wf hw) hfit
  refine ⟨s1, hrun, hal, ?_⟩
  rw [htot, clear_eq]
  simp [Stack.chunk_total]
  omega

/-- C12 on the stack that holds one element. -/
theorem clear_then_reuse_witness :
    ∃ s1, byte_stack_7.clear.run (push_ops [(stale_bytes, [9])]) = Except.ok s1 ∧
      allocations byte_stack_7.clear (push_ops [(stale_bytes, [9])]) = 0 ∧
      s1.chunk_total = byte_stack_7.chunk_total :=
  clear_then_reuse byte_stack_7 byte_stack_7_reachable [(stale_bytes, [9])] rfl

/-- C13. Peek: in every reachable state `peek()` (a function of the state that
returns a pointer and writes nothing) returns null if and only if the stack is
empty; otherwise it returns the address of slot `chunk_index` of the head
chunk, whose `elem_size` bytes are the top live element; after `push(v)` these
bytes are `v`. -/
theorem peek_top (s : Stack) (hr : Reachable s) :
    (s.peek = none ↔ s.is_empty = true) ∧
      (s.is_empty = false →
        ∃ c older, s.chunk_curr = c :: older ∧
          s.peek = some (s.elem_size * s.chunk_index) ∧
          s.live.head? = some (read_bytes c.data (s.elem_size * s.chunk_index) s.elem_size)) ∧
      (∀ junk v, v.length = s.elem_size →
        ∃ s1 c older off, s.push junk v = Except.ok s1 ∧ s1.chunk_curr = c :: older ∧
          s1.peek = some off ∧ read_bytes c.data off s.elem_size = v) := by
  have hw := hr.wf
  have hmax := params_ok_elem_max_lt hw.params
  have hE := CHUNK_EMPTY_lt
  have key : ∀ {t : Stack}, t.wf → ∀ c older, t.chunk_curr = c :: older →
      t.peek = some (t.elem_size * t.chunk_index) ∧
        t.live.head? = some (read_bytes c.data (t.elem_size * t.chunk_index) t.elem_size) := by
    intro t ht c older hc
    have hmax1 := params_ok_elem_max_lt ht.params
    have hi := (ht.when_populated (by simp [hc])).1
    have hne : t.chunk_index ≠ CHUNK_EMPTY := by omega
    have hslot := params_ok_slot ht.params hi
    refine ⟨?_, ?_⟩
    · simp [Stack.peek, Stack.is_empty, Stack.get_last_elem, hc, hne,
        Nat.mod_eq_of_lt hslot.2]
    · simp [Stack.live, hc, slots_down, read_slot]
  refine ⟨?_, ?_, ?_⟩
  · cases hc : s.chunk_curr with
    | nil => simp [Stack.peek, Stack.is_empty, hc]
    | cons c older =>
      have := (key hw c older hc).1
      simp [this, Stack.is_empty, hc]
  · intro he
    cases hc : s.chunk_curr with
    | nil => simp [Stack.is_empty, hc] at he
    | cons c older => exact ⟨c, older, rfl, key hw c older hc⟩
  · intro junk v hv
    obtain ⟨s1, hp, hw1, hne, _, hS, _, hl⟩ := push_spec hw junk v
    cases hc : s1.chunk_curr with
    | nil => exact absurd hc hne
    | cons c older =>
      obtain ⟨hpeek, hhead⟩ := key hw1 c older hc
      refine ⟨s1, c, older, _, hp, hc, hpeek, ?_⟩
      rw [hl (by omega), List.take_of_length_le (by omega)] at hhead
      simp only [List.head?_cons, Option.some.injEq] at hhead
      rw [← hS, ← hhead]

/-- C13 on the stack that holds the byte 7. -/
theorem peek_top_witness :
    (byte_stack_7.peek = none ↔ byte_stack_7.is_empty = true) ∧
      (byte_stack_7.is_empty = false →
        ∃ c older, byte_stack_7.chunk_curr = c :: older ∧
          byte_stack_7.peek = some (byte_stack_7.elem_size * byte_stack_7.chunk_index) ∧
          byte_stack_7.live.head? =
            some (read_bytes c.data (byte_stack_7.elem_size * byte_stack_7.chunk_index)
              byte_stack_7.elem_size)) ∧
      (∀ junk v, v.length = byte_stack_7.elem_size →
        ∃ s1 c older off, byte_stack_7.push junk v = Except.ok s1 ∧
          s1.chunk_curr = c :: older ∧ s1.peek = some off ∧
          read_bytes c.data off byte_stack_7.elem_size = v) :=
  peek_top byte_stack_7 byte_stack_7_reachable

/-- C14. Discard on empty is a no-op: in every state with `is_empty()` true
(reachable or not) `discard()` returns the identical state. -/
theorem discard_on_empty (s : Stack) (he : s.is_empty = true) : s.discard = s := by
  apply discard_of_empty
  simpa [Stack.is_empty, List.isEmpty_iff] using he

/-- C14 on a new stack. -/
theorem discard_on_empty_witness : byte_stack.discard = byte_stack :=
  discard_on_empty byte_stack rfl

theorem run_push_ops_elem_max {s s1 : Stack} (h : s.wf)
    (pvs : List ((Nat → Byte) × List Byte)) (hr : s.run (push_ops pvs) = Except.ok s1) :
    s1.chunk_elem_max = s.chunk_elem_max := by
  induction pvs generalizing s with
  | nil =>
    simp only [push_ops, List.map_nil, Stack.run] at hr
    injection hr with hr
    rw [hr]
  | cons p pvs ih =>
    obtain ⟨s2, hp, hw, _, _, _, hcem, _⟩ := push_spec h p.1 p.2
    simp only [push_ops, List.map_cons, Stack.run, Stack.step, hp] at hr
    rw [ih hw hr, hcem]

/-- A stack holding `chunk_elem_max + 1` elements has exactly two active
chunks and its cursor at slot 0. -/
theorem two_chunks_of_count {s : Stack} (h : s.wf) (hn : s.elem_num = s.chunk_elem_max + 1) :
    ∃ head older, s.chunk_curr = [head, older] ∧ s.chunk_index = 0 := by
  obtain ⟨_, hpos, _⟩ := h.params
  have hc : s.chunk_curr ≠ [] := by
    intro hc
    have := (h.when_empty hc).1
    omega
  obtain ⟨hi, hnum⟩ := h.when_populated hc
  have hlen : s.chunk_curr.length = 2 ∧ s.chunk_index = 0 := by
    rcases hl : s.chunk_curr.length with _ | _ | _ | l
    · exact absurd (List.length_eq_zero.mp hl) hc
    · rw [hl] at hnum; simp at hnum; omega
    · rw [hl] at hnum; simp at hnum; omega
    · rw [hl] at hnum
      have e : (l + 1 + 1 + 1 - 1) * s.chunk_elem_max =
          l * s.chunk_elem_max + s.chunk_elem_max + s.chunk_elem_max := by
        have : l + 1 + 1 + 1 - 1 = l + 1 + 1 := by omega
        rw [this, Nat.succ_mul, Nat.succ_mul]
      rw [e] at hnum
      omega
  obtain ⟨head, older, hco⟩ := List.length_eq_two.mp hlen.1
  exact ⟨head, older, hco, hlen.2⟩

/-- C15. Chunk-boundary correctness: pushing `chunk_elem_max + 1` elements onto
a freshly created stack returns and leaves exactly two active chunks, the first
`chunk_elem_max` elements filling the older chunk and the last element sitting
at cursor 0 of the head chunk; popping them all delivers `vn, ..., v1` and
leaves the stack empty. -/
theorem chunk_boundary (fuel S B : Nat) (s0 : Stack) (hc : Stack.create fuel S B = some s0)
    (hp : s0.params_ok) (pvs : List ((Nat → Byte) × List Byte))
    (hv : ∀ p ∈ pvs, p.2.length = S) (hlen : pvs.length = s0.chunk_elem_max + 1)
    (dsts : List (List Byte × Nat)) (hn : dsts.length = pvs.length)
    (hroom : ∀ d ∈ dsts, d.2 + S ≤ d.1.length) :
    ∃ s1 head older, s0.run (push_ops pvs) = Except.ok s1 ∧
      s1.chunk_curr = [head, older] ∧ s1.chunk_index = 0 ∧
      (∀ i, i < s0.chunk_elem_max →
        (pvs.map fun p => p.2)[i]? = some (read_slot S older i)) ∧
      (pvs.map fun p => p.2)[s0.chunk_elem_max]? = some (read_slot S head 0) ∧
      (s1.pop_each dsts).2 = (pvs.map fun p => p.2).reverse ∧
      (s1.pop_each dsts).1.is_empty = true := by
  have hw0 := create_wf hc hp
  obtain ⟨hcurr, _, _, _, hS⟩ := create_is_empty hc
  have hl0 : s0.live = [] := by simp [Stack.live, hcurr]
  obtain ⟨s1, hrun, hw1, hl1, hS1⟩ :=
    run_push_ops hw0 pvs (fun p hp1 => by rw [hS]; exact hv p hp1)
  rw [hl0, List.append_nil] at hl1
  have hcem := run_push_ops_elem_max hw0 pvs hrun
  have hlive : s1.live.length = pvs.length := by simp [hl1]
  have hnum : s1.elem_num = s1.chunk_elem_max + 1 := by
    rw [← live_length hw1, hlive, hlen, hcem]
  obtain ⟨head, older, hco, hidx⟩ := two_chunks_of_count hw1 hnum
  obtain ⟨hst, hout⟩ := pop_each_spec dsts hw1 (by omega)
    (fun d hd => by rw [hS1, hS]; exact hroom d hd)
  obtain ⟨hwn, hln, _, _⟩ := discard_iterate_spec hw1 dsts.length
  have hrev : (pvs.map fun p => p.2).reverse =
      read_slot S head 0 :: slots_down S older s0.chunk_elem_max := by
    rw [← hl1]
    simp [Stack.live, hco, hidx, slots_down, full_chunks, hS1, hS, hcem]
  have hmaplen : (pvs.map fun p => p.2).length = s0.chunk_elem_max + 1 := by
    rw [List.length_map, hlen]
  have hget : ∀ i, i < s0.chunk_elem_max + 1 →
      (pvs.map fun p => p.2)[i]? =
        (read_slot S head 0 :: slots_down S older s0.chunk_elem_max)[s0.chunk_elem_max - i]? := by
    intro i hi
    rw [← hrev, List.getElem?_reverse (by rw [hmaplen]; omega), hmaplen]
    congr 1
    omega
  refine ⟨s1, head, older, hrun, hco, hidx, ?_, ?_, ?_, ?_⟩
  · intro i hi
    rw [hget i (by omega)]
    obtain ⟨j, hj⟩ : ∃ j, s0.chunk_elem_max - i = j + 1 :=
      ⟨s0.chunk_elem_max - i - 1, by omega⟩
    rw [hj, List.getElem?_cons_succ, slots_down_getElem? S older _ j (by omega)]
    congr 2
    omega
  · rw [hget _ (Nat.lt_succ_self _), Nat.sub_self]
    simp
  · rw [hout, List.take_of_length_le (by omega), hl1]
  · rw [hst, (wf_empty_iff hwn).1, ← live_length hwn, hln]
    simp; omega

/-- C15 on one-byte elements with 48 elements per chunk: 49 pushes. -/
theorem chunk_boundary_witness :
    ∃ s1 head older,
      byte_stack.run (push_ops (List.replicate 49 (stale_bytes, [5]))) = Except.ok s1 ∧
      s1.chunk_curr = [head, older] ∧ s1.chunk_index = 0 ∧
      (∀ i, i < byte_stack.chunk_elem_max →
        ((List.replicate 49 (stale_bytes, [5])).map fun p => p.2)[i]? =
          some (read_slot 1 older i)) ∧
      ((List.replicate 49 (stale_bytes, [5])).map fun p => p.2)[byte_stack.chunk_elem_max]? =
        some (read_slot 1 head 0) ∧
      (s1.pop_each (List.replicate 49 ([0], 0))).2 =
        ((List.replicate 49 (stale_bytes, [5])).map fun p => p.2).reverse ∧
      (s1.pop_each (List.replicate 49 ([0], 0))).1.is_empty = true :=
  chunk_boundary 1 1 64 byte_stack byte_stack_create byte_stack_params_ok
    (List.replicate 49 (stale_bytes, [5]))
    (fun p hp => by rw [List.eq_of_mem_replicate hp]; rfl) rfl
    (List.replicate 49 ([0], 0)) (by simp)
    (fun d hd => by rw [List.eq_of_mem_replicate hd]; decide)

/-- C16. After `push` of one element and `discard`, the active list is empty
and the cursor is `chunk_elem_max - 1 = 47`, not `CHUNK_EMPTY`. -/
theorem discard_to_empty_cursor :
    byte_stack_7.is_empty = false ∧ byte_stack_7.discard.chunk_curr = [] ∧
      byte_stack_7.discard.chunk_index = 47 ∧
      byte_stack_7.discard.chunk_index ≠ CHUNK_EMPTY := by
  decide

/-- C17. Push chunk acquisition: in every reachable state `push_raw()` acquires
a chunk if and only if the active list is empty or the cursor equals
`chunk_elem_max - 1`; an acquired chunk is the head of the free list when there
is one (the free list loses that head) and a fresh allocation otherwise (the
free list stays empty), it becomes the head of the active list and the cursor
becomes 0; without acquisition both lists are unchanged and the cursor
increases by one; `elem_num` increases by one in both cases. -/
theorem push_chunk_acquisition (s : Stack) (hr : Reachable s) (junk : Nat → Byte) :
    (s.push_acquires = true ↔
        (s.chunk_curr = [] ∨ s.chunk_index = s.chunk_elem_max - 1)) ∧
      ∃ s1 p, s.push_raw junk = Except.ok (s1, p) ∧ s1.elem_num = s.elem_num + 1 ∧
        (s.push_acquires = true →
          s1.chunk_index = 0 ∧
            ((∃ c fr, s.chunk_free = c :: fr ∧ s1.chunk_curr = c :: s.chunk_curr ∧
                s1.chunk_free = fr) ∨
              (s.chunk_free = [] ∧ s1.chunk_curr = s.malloc_chunk junk :: s.chunk_curr ∧
                s1.chunk_free = []))) ∧
        (s.push_acquires = false →
          s1.chunk_index = s.chunk_index + 1 ∧ s1.chunk_curr = s.chunk_curr ∧
            s1.chunk_free = s.chunk_free) := by
  have hw := hr.wf
  obtain ⟨_, hpos, _⟩ := hw.params
  have hiff := push_acquires_iff hw
  obtain ⟨s1, hraw, _, hnum, hacq, hadv⟩ := push_raw_detail hw junk
  refine ⟨?_, s1, _, hraw, hnum, fun ha => hacq (hiff.mp ha), fun ha => hadv ?_⟩
  · rw [hiff]
    constructor
    · rintro (h1 | h1)
      · exact Or.inl h1
      · exact Or.inr (by omega)
    · rintro (h1 | h1)
      · exact Or.inl h1
      · exact Or.inr (by omega)
  · intro hfull
    rw [hiff.mpr hfull] at ha
    cases ha

/-- C17 on the stack that holds one element. -/
theorem push_chunk_acquisition_witness :
    (byte_stack_7.push_acquires = true ↔
        (byte_stack_7.chunk_curr = [] ∨
          byte_stack_7.chunk_index = byte_stack_7.chunk_elem_max - 1)) ∧
      ∃ s1 p, byte_stack_7.push_raw stale_bytes = Except.ok (s1, p) ∧
        s1.elem_num = byte_stack_7.elem_num + 1 ∧
        (byte_stack_7.push_acquires = true →
          s1.chunk_index = 0 ∧
            ((∃ c fr, byte_stack_7.chunk_free = c :: fr ∧
                s1.chunk_curr = c :: byte_stack_7.chunk_curr ∧ s1.chunk_free = fr) ∨
              (byte_stack_7.chunk_free = [] ∧
                s1.chunk_curr = byte_stack_7.malloc_chunk stale_bytes :: byte_stack_7.chunk_curr ∧
                s1.chunk_free = []))) ∧
        (byte_stack_7.push_acquires = false →
          s1.chunk_index = byte_stack_7.chunk_index + 1 ∧
            s1.chunk_curr = byte_stack_7.chunk_curr ∧
            s1.chunk_free = byte_stack_7.chunk_free) :=
  push_chunk_acquisition byte_stack_7 byte_stack_7_reachable stale_bytes

/-- C19, as stated, fails: element size `2 ^ 58` and budget 1 are positive
`size_t` values, the bound `S * 32` is `2 ^ 63`, the budget is doubled up to
`2 ^ 63`, wraps to 0, and the loop never exits. -/
theorem doubling_loop_diverges :
    (0 < 2 ^ 58 ∧ 2 ^ 58 < SIZE_MOD ∧ 0 < 1 ∧ 1 < SIZE_MOD) ∧
      (¬ ∃ fuel c, doubling_loop ((2 ^ 58 * CHUNK_ELEM_MIN) % SIZE_MOD) fuel 1 = some c) ∧
      (¬ ∃ fuel n, calculate_chunk_elem_max fuel (2 ^ 58) 1 = SizingResult.value n) := by
  have hm : (2 ^ 58 * CHUNK_ELEM_MIN) % SIZE_MOD = 2 ^ 63 := by
    unfold CHUNK_ELEM_MIN SIZE_MOD; norm_num
  refine ⟨by unfold SIZE_MOD; norm_num, ?_, ?_⟩
  · rintro ⟨fuel, c, h⟩
    have hloop := doubling_loop_pow_none 63 (Nat.le_refl _) fuel
    rw [Nat.sub_self, pow_zero] at hloop
    rw [hm, hloop] at h
    cases h
  · rintro ⟨fuel, n, h⟩
    rw [sizing_diverges fuel] at h
    cases h

/-- C19, amended. Sizing terminates when the doubling reaches the bound before
it wraps: for `S > 0` and `B > 0` such that some doubled budget `B * 2 ^ k`
below `2 ^ 64` exceeds `S * 32` (modulo `2 ^ 64`, as the code computes it), the
loop exits within `k + 1` tests, `calculate_chunk_elem_max` returns, and the
doubled budget on exit is strictly greater than `S * 32` modulo `2 ^ 64`. -/
theorem doubling_terminates_without_wrap (S B k fuel : Nat) (hS : 0 < S) (hB : 0 < B)
    (hk : (S * CHUNK_ELEM_MIN) % SIZE_MOD < B * 2 ^ k) (hno : B * 2 ^ k < SIZE_MOD)
    (hfuel : k < fuel) :
    ∃ c n, doubling_loop ((S * CHUNK_ELEM_MIN) % SIZE_MOD) fuel B = some c ∧
      (S * CHUNK_ELEM_MIN) % SIZE_MOD < c ∧
      calculate_chunk_elem_max fuel S B = SizingResult.value n := by
  obtain ⟨j, _, hloop, hgt⟩ :=
    doubling_loop_terminates ((S * CHUNK_ELEM_MIN) % SIZE_MOD) k B fuel hk hno hfuel
  have hne : S ≠ 0 ∧ B ≠ 0 := ⟨by omega, by omega⟩
  refine ⟨B * 2 ^ j, ((B * 2 ^ j + SIZE_MOD - sizeof_StackChunk) % SIZE_MOD) / S, hloop, hgt, ?_⟩
  simp only [calculate_chunk_elem_max, hloop]
  rw [if_pos hne]

/-- C19, amended, on element size 1 and budget 1: six doublings reach 64. -/
theorem doubling_terminates_without_wrap_witness :
    ∃ c n, doubling_loop ((1 * CHUNK_ELEM_MIN) % SIZE_MOD) 7 1 = some c ∧
      (1 * CHUNK_ELEM_MIN) % SIZE_MOD < c ∧
      calculate_chunk_elem_max 7 1 1 = SizingResult.value n :=
  doubling_terminates_without_wrap 1 1 6 7 (by decide) (by decide) (by decide) (by decide)
    (by decide)

/-! ## The cursor of an emptied stack -/

/-- When `discard` removes the last element, the cursor is left at
`chunk_elem_max - 1`; the following `push_raw` increments it to
`chunk_elem_max` and so acquires a chunk. -/
theorem discard_to_empty_index {s : Stack} (h : s.wf) (hc : s.chunk_curr ≠ [])
    (he : s.discard.chunk_curr = []) : s.discard.chunk_index = s.chunk_elem_max - 1 := by
  by_cases hi : s.chunk_index = 0
  · obtain ⟨c, older, hco⟩ : ∃ c older, s.chunk_curr = c :: older := by
      cases hcc : s.chunk_curr with
      | nil => exact absurd hcc hc
      | cons c older => exact ⟨c, older, rfl⟩
    rw [discard_retire h hco hi]
  · rw [discard_inside h hc (by omega)] at he
    exact absurd he hc

/-! ## Construction with arbitrary `size_t` arguments -/

/-- What a returning constructor has computed. -/
theorem create_some {fuel S B : Nat} {s : Stack} (hc : Stack.create fuel S B = some s) :
    S ≠ 0 ∧ B ≠ 0 ∧ s.elem_size = S ∧
      ∃ c, doubling_loop ((S * CHUNK_ELEM_MIN) % SIZE_MOD) fuel B = some c ∧
        s.chunk_elem_max = ((c + SIZE_MOD - sizeof_StackChunk) % SIZE_MOD) / S := by
  unfold Stack.create calculate_chunk_elem_max at hc
  by_cases hne : S ≠ 0 ∧ B ≠ 0
  · cases hloop : doubling_loop ((S * CHUNK_ELEM_MIN) % SIZE_MOD) fuel B with
    | none =>
      simp only [hloop, if_pos hne] at hc
      cases hc
    | some c =>
      simp only [hloop, if_pos hne] at hc
      injection hc with hc
      subst hc
      exact ⟨hne.1, hne.2, rfl, c, rfl, rfl⟩
  · simp only [if_neg hne] at hc
    cases hc

/-- The budget the loop exits with is a `size_t` value. -/
theorem doubling_loop_exit_lt (m : Nat) : ∀ (fuel B c : Nat), B < SIZE_MOD →
    doubling_loop m fuel B = some c → c < SIZE_MOD := by
  intro fuel
  induction fuel with
  | zero => intro B c _ h; simp [doubling_loop] at h
  | succ f ih =>
    intro B c hB h
    by_cases hle : B ≤ m
    · rw [doubling_loop_succ_le m f B hle] at h
      exact ih _ c (Nat.mod_lt _ (by unfold SIZE_MOD; norm_num)) h
    · rw [doubling_loop_succ_gt m f B (by omega)] at h
      injection h with h
      omega

/-- A constructed stack whose chunks hold at least one element has an
allocation request that fits `size_t`. -/
theorem create_params_ok_of_pos {fuel S B : Nat} {s : Stack}
    (hc : Stack.create fuel S B = some s) (hB : B < SIZE_MOD) (hpos : 0 < s.chunk_elem_max) :
    s.params_ok := by
  obtain ⟨hS0, _, hS, c, hloop, hcem⟩ := create_some hc
  have hgt := doubling_loop_exit_gt _ fuel B c hloop
  have hlt := doubling_loop_exit_lt _ fuel B c hB hloop
  refine ⟨by rw [hS]; omega, hpos, ?_⟩
  rw [hS, hcem]
  have hdiv := Nat.mul_div_le ((c + SIZE_MOD - sizeof_StackChunk) % SIZE_MOD) S
  unfold CHUNK_ELEM_MIN at hgt
  unfold sizeof_StackChunk at *
  rw [SIZE_MOD_eq] at *
  by_cases h16 : 16 ≤ c
  · have hv : (c + 18446744073709551616 - 16) % 18446744073709551616 = c - 16 := by omega
    rw [hv] at hdiv ⊢
    omega
  · have hv : (c + 18446744073709551616 - 16) % 18446744073709551616 =
        c + 18446744073709551616 - 16 := by omega
    rw [hv] at hdiv ⊢
    have hd : S % 576460752303423488 = 0 := by omega
    have hdvd : 576460752303423488 ∣
        S * ((c + 18446744073709551616 - 16) / S) :=
      Dvd.dvd.mul_right (Nat.dvd_of_mod_eq_zero hd) _
    have := Nat.mod_eq_zero_of_dvd hdvd
    omega

/-- Every element size below `2 ^ 59` gives chunks of at least one element. -/
theorem create_elem_max_pos {fuel S B : Nat} {s : Stack}
    (hc : Stack.create fuel S B = some s) (hS : S < 2 ^ 59) (hB : B < SIZE_MOD) :
    0 < s.chunk_elem_max := by
  obtain ⟨hS0, _, _, c, hloop, hcem⟩ := create_some hc
  have hgt := doubling_loop_exit_gt _ fuel B c hloop
  have hlt := doubling_loop_exit_lt _ fuel B c hB hloop
  rw [hcem]
  apply Nat.div_pos _ (by omega)
  unfold CHUNK_ELEM_MIN at hgt
  unfold sizeof_StackChunk
  rw [SIZE_MOD_eq] at *
  have h59 : (2 : Nat) ^ 59 = 576460752303423488 := by norm_num
  rw [h59] at hS
  omega

/-- A run of calls that returns keeps the invariant. -/
theorem run_wf : ∀ (ops : List Op) {s s1 : Stack}, s.wf → s.run ops = Except.ok s1 → s1.wf := by
  intro ops
  induction ops with
  | nil =>
    intro s s1 h hr
    simp only [Stack.run] at hr
    injection hr with hr
    exact hr ▸ h
  | cons op ops ih =>
    intro s s1 h hr
    cases hs : s.step op with
    | error e =>
      simp only [Stack.run, hs] at hr
      cases hr
    | ok s2 =>
      simp only [Stack.run, hs] at hr
      exact ih (step_wf h op hs) hr

/-! ## The claims on cursor validity and chunk footprint -/

/-- C18, as stated, fails: `BLI_stack_new_ex(2 ^ 59 + 1, description, 33)`
returns a stack with `chunk_elem_max = 0` (the product `S * 32` wraps to 32, no
doubling happens, `(33 - 16) / S = 0`), and in this fresh state every
`push_raw` stops at its assertion, the cursor 0 not being below 0. -/
theorem push_raw_assertion_fails :
    (0 < 2 ^ 59 + 1 ∧ 2 ^ 59 + 1 < SIZE_MOD ∧ 0 < 33 ∧ 33 < SIZE_MOD) ∧
      ∃ s0, Stack.create 1 (2 ^ 59 + 1) 33 = some s0 ∧ s0.chunk_elem_max = 0 ∧
        ∀ junk, ∃ e, s0.push_raw junk = Except.error e ∧ e.chunk_index = 0 ∧
          e.chunk_elem_max = 0 := by
  refine ⟨by unfold SIZE_MOD; norm_num,
    Stack.mk [] [] CHUNK_EMPTY 0 (2 ^ 59 + 1) 0, by decide, rfl, ?_⟩
  intro junk
  exact ⟨_, rfl, rfl, rfl⟩

/-- C18, amended. Cursor validity invariant: in every state reached from a
freshly created stack whose `chunk_elem_max` is at least 1 by a sequence of
push, push_raw, pop, pop_n, pop_n_reverse, discard and clear calls, a non-empty
active list has its cursor below `chunk_elem_max`; hence `push_raw` and `push`
always pass the assertion and return, and `get_last_elem` is not null on a
non-empty stack. -/
theorem cursor_validity (fuel S B : Nat) (s0 : Stack)
    (hc : Stack.create fuel S B = some s0) (hB : B < SIZE_MOD)
    (hpos : 0 < s0.chunk_elem_max) (ops : List Op) (s : Stack)
    (hrun : s0.run ops = Except.ok s) :
    (s.chunk_curr ≠ [] → s.chunk_index < s.chunk_elem_max) ∧
      (∀ junk, ∃ s1 off, s.push_raw junk = Except.ok (s1, some off) ∧
        s1.chunk_index < s1.chunk_elem_max) ∧
      (∀ junk src, ∃ s1, s.push junk src = Except.ok s1) ∧
      (s.is_empty = false → s.get_last_elem = some (s.elem_size * s.chunk_index)) := by
  have hw : s.wf := run_wf ops (create_wf hc (create_params_ok_of_pos hc hB hpos)) hrun
  refine ⟨fun hc => (hw.when_populated hc).1, ?_, ?_, ?_⟩
  · intro junk
    obtain ⟨s1, c, older, hraw, hw1, hc1, _⟩ := push_raw_spec hw junk
    exact ⟨s1, _, hraw, (hw1.when_populated (by simp [hc1])).1⟩
  · intro junk src
    obtain ⟨s1, hp, _⟩ := push_spec hw junk src
    exact ⟨s1, hp⟩
  · intro he
    have hmax := params_ok_elem_max_lt hw.params
    have hE := CHUNK_EMPTY_lt
    cases hc : s.chunk_curr with
    | nil => simp [Stack.is_empty, hc] at he
    | cons c older =>
      have hi := (hw.when_populated (by simp [hc])).1
      have hne : s.chunk_index ≠ CHUNK_EMPTY := by omega
      have hslot := params_ok_slot hw.params hi
      simp [Stack.get_last_elem, hc, hne, Nat.mod_eq_of_lt hslot.2]

/-- C18, amended, on the stack reached by pushing 7 and 8 onto a new stack of
one-byte elements. -/
theorem cursor_validity_witness :
    (byte_stack_7_8.chunk_curr ≠ [] →
        byte_stack_7_8.chunk_index < byte_stack_7_8.chunk_elem_max) ∧
      (∀ junk, ∃ s1 off, byte_stack_7_8.push_raw junk = Except.ok (s1, some off) ∧
        s1.chunk_index < s1.chunk_elem_max) ∧
      (∀ junk src, ∃ s1, byte_stack_7_8.push junk src = Except.ok s1) ∧
      (byte_stack_7_8.is_empty = false →
        byte_stack_7_8.get_last_elem =
          some (byte_stack_7_8.elem_size * byte_stack_7_8.chunk_index)) :=
  cursor_validity 1 1 64 byte_stack byte_stack_create (by unfold SIZE_MOD; decide)
    (by decide) [Op.push stale_bytes [7], Op.push stale_bytes [8]] byte_stack_7_8 rfl

/-- C20, as stated, fails: for element size `2 ^ 59` and budget 1 the bound
`S * 32` wraps to 0, the loop exits at its first test without any doubling (so
nothing overflows in the loop), yet the budget 1 is below the header size, the
subtraction wraps, and the `malloc` request exceeds the budget. -/
theorem chunk_footprint_fails_on_wrapped_bound :
    (0 < 2 ^ 59 ∧ 2 ^ 59 < SIZE_MOD ∧ 0 < 1) ∧
      doubling_loop ((2 ^ 59 * CHUNK_ELEM_MIN) % SIZE_MOD) 1 1 = some 1 ∧
      1 < sizeof_StackChunk ∧
      ∃ s, Stack.create 1 (2 ^ 59) 1 = some s ∧ s.chunk_elem_max = 31 ∧
        1 < s.malloc_request := by
  refine ⟨by unfold SIZE_MOD; norm_num, by decide, by decide,
    Stack.mk [] [] CHUNK_EMPTY 31 (2 ^ 59) 0, by decide, rfl, by decide⟩

/-- C20, amended. Chunk footprint fits the doubled budget: for `S > 0`,
`B > 0` such that neither the product `S * 32` nor the doubling overflows
(`S * 32 < 2 ^ 64`, and the doubled budget `B * 2 ^ k` the loop stops at is
below `2 ^ 64`), the header size does not exceed the doubled budget (the
subtraction does not underflow), `chunk_elem_max` is at least 1, and the
`malloc` request `sizeof(StackChunk) + S * chunk_elem_max` does not wrap and is
at most the doubled budget. -/
theorem chunk_footprint (S B k fuel : Nat) (hS : 0 < S) (hB : 0 < B)
    (hprod : S * CHUNK_ELEM_MIN < SIZE_MOD)
    (hleast : ∀ j, j < k → B * 2 ^ j ≤ 32 * S) (hk : 32 * S < B * 2 ^ k)
    (hno : B * 2 ^ k < SIZE_MOD) (hfuel : k < fuel) :
    ∃ s, Stack.create fuel S B = some s ∧
      doubling_loop ((S * CHUNK_ELEM_MIN) % SIZE_MOD) fuel B = some (B * 2 ^ k) ∧
      sizeof_StackChunk ≤ B * 2 ^ k ∧
      s.chunk_elem_max = (B * 2 ^ k - sizeof_StackChunk) / S ∧
      1 ≤ s.chunk_elem_max ∧
      s.malloc_request = sizeof_StackChunk + S * s.chunk_elem_max ∧
      s.malloc_request ≤ B * 2 ^ k := by
  obtain ⟨s, hc, ⟨_, hpos, hreq⟩, hcem⟩ := create_params_ok S B k fuel hS hB hleast hk hno hfuel
  have hSz := (create_is_empty hc).2.2.2.2
  have hm : (S * CHUNK_ELEM_MIN) % SIZE_MOD = 32 * S := by
    rw [Nat.mod_eq_of_lt hprod]
    unfold CHUNK_ELEM_MIN; ring
  have hloop := doubling_loop_exact (32 * S) k B fuel hleast hk hno hfuel
  have hdiv := Nat.mul_div_le (B * 2 ^ k - sizeof_StackChunk) S
  rw [hSz] at hreq
  have hreq1 : s.malloc_request = sizeof_StackChunk + S * s.chunk_elem_max := by
    have h1 : S * s.chunk_elem_max < SIZE_MOD := by omega
    unfold Stack.malloc_request
    rw [hSz, Nat.mod_eq_of_lt h1, Nat.mod_eq_of_lt hreq]
  refine ⟨s, hc, by rw [hm]; exact hloop, ?_, hcem, hpos, hreq1, ?_⟩
  · unfold sizeof_StackChunk; omega
  · rw [hreq1, hcem]
    unfold sizeof_StackChunk at *
    omega

/-- C20, amended, on four-byte elements and the default budget. -/
theorem chunk_footprint_witness :
    ∃ s, Stack.create 1 4 CHUNK_SIZE_DEFAULT = some s ∧
      doubling_loop ((4 * CHUNK_ELEM_MIN) % SIZE_MOD) 1 CHUNK_SIZE_DEFAULT =
        some (CHUNK_SIZE_DEFAULT * 2 ^ 0) ∧
      sizeof_StackChunk ≤ CHUNK_SIZE_DEFAULT * 2 ^ 0 ∧
      s.chunk_elem_max = (CHUNK_SIZE_DEFAULT * 2 ^ 0 - sizeof_StackChunk) / 4 ∧
      1 ≤ s.chunk_elem_max ∧
      s.malloc_request = sizeof_StackChunk + 4 * s.chunk_elem_max ∧
      s.malloc_request ≤ CHUNK_SIZE_DEFAULT * 2 ^ 0 :=
  chunk_footprint 4 CHUNK_SIZE_DEFAULT 0 1 (by decide) (by decide) (by decide)
    (fun j hj => absurd hj (Nat.not_lt_zero j)) (by decide) (by decide) (by decide)

end ChunkedStack
